import Mathlib

/-!
Verification of the OliveYoung ranking scraper (src/app.py) against its
natural-language specification.

The file shallowly embeds the pure core of src/app.py:
  * clean_title (app.py:83-91) with its four regex stages,
  * _oy_goodsno_from_url / _oy_key (app.py:427-442),
  * fill_ranks_and_fix (app.py:266-275) and the truncation in main (app.py:605-607),
  * the acquisition coordination in main (app.py:596-603) over
    try_http_candidates (app.py:227-233),
  * the trend classification, OUT computation and in-and-out churn count of
    build_slack_message_kor (app.py:454-584),
  * the discount computation disc_pct (app.py:150-153 and 213-215),
    including a rational model of the binary64 float arithmetic it uses.

Python dictionaries are modelled as association lists with insertion-order
preserving overwrite; Python sets of strings as Finset String; machine floats
as exact rationals rounded to 53-bit precision (round to nearest, ties to
even), which matches IEEE-754 binary64 on the normal range used here.
Whitespace predicates model the ASCII part of Python str.strip / regex
whitespace; percent-decoding is modelled at the byte-for-codepoint (ASCII)
level. All inputs exercised in the theorems stay inside these ranges.
-/

/-- Characters treated as whitespace by Python str.strip and by the ASCII part
of the regex class backslash-s: space, tab, newline, carriage return, form
feed, vertical tab. -/
def isPySpace (c : Char) : Bool :=
  c = ' ' || c = '\t' || c = '\n' || c = '\r' || c = '\x0c' || c = '\x0b'

/-- Python str.strip on a character list: drop whitespace at both ends. -/
def pyStrip (l : List Char) : List Char :=
  (l.dropWhile isPySpace).rdropWhile isPySpace

/-- Python str.strip on a String. -/
def pyStripStr (s : String) : String :=
  (pyStrip s.toList).asString

/-- Python truthy-or chain for optional strings: None and the empty string are
falsy, so a or b takes a when a is a non-empty string and b otherwise. -/
def pyOrStr (a : Option String) (b : String) : String :=
  match a with
  | some s => if s = "" then b else s
  | none => b

/-- One scraped catalog record as built by parse_html_products /
try_http_candidates in src/app.py (a Python dict with these keys).
Prices are the non-negative integers returned by parse_won_to_int, or None. -/
structure Item where
  raw_name : Option String := none
  name : Option String := none
  brand : Option String := none
  url : Option String := none
  original_price : Option Nat := none
  sale_price : Option Nat := none
  discount_pct : Option Int := none
  rank : Option Int := none
deriving DecidableEq, Repr

/-- Maximum item count MAX_ITEMS = 100 (app.py:39). -/
def MAX_ITEMS : Nat := 100

/-! URL query parsing: model of urlparse(u).query and parse_qs from
urllib.parse, as used by _oy_goodsno_from_url (app.py:427-434). -/

/-- Hexadecimal digit value of a character, if it is one. -/
def hexVal (c : Char) : Option Nat :=
  if '0' ≤ c ∧ c ≤ '9' then some (c.toNat - '0'.toNat)
  else if 'a' ≤ c ∧ c ≤ 'f' then some (c.toNat - 'a'.toNat + 10)
  else if 'A' ≤ c ∧ c ≤ 'F' then some (c.toNat - 'A'.toNat + 10)
  else none

/-- Model of urllib.parse.unquote_plus restricted to single-byte (ASCII)
escapes: a plus becomes a space, a percent followed by two hex digits becomes
the character with that code, everything else is kept. -/
def unquotePlus : List Char → List Char
  | [] => []
  | '+' :: rest => ' ' :: unquotePlus rest
  | '%' :: a :: b :: rest =>
    match hexVal a, hexVal b with
    | some ha, some hb => Char.ofNat (16 * ha + hb) :: unquotePlus rest
    | _, _ => '%' :: unquotePlus (a :: b :: rest)
  | c :: rest => c :: unquotePlus rest

/-- Query component of a URL as urlparse extracts it: the part after the
first question mark, the fragment (everything from the first hash on)
removed first. -/
def urlQuery (u : List Char) : List Char :=
  let beforeFrag := u.takeWhile (fun c => c ≠ '#')
  match beforeFrag.dropWhile (fun c => c ≠ '?') with
  | _ :: rest => rest
  | [] => []

/-- Split a character list on a separator character. -/
def splitOnChar (sep : Char) (l : List Char) : List (List Char) :=
  l.splitOn sep

/-- Model of parse_qs(query).get(key, [empty])[0]: scan the ampersand-separated
segments in order; the first segment having an equals sign, a (decoded) name
equal to the key and a non-empty raw value yields its decoded value
(parse_qs drops blank values and bare names since keep_blank_values is false;
the dict stores values of one name in order of occurrence, so index 0 is the
first such segment). -/
def parseQsFirst (key : List Char) (query : List Char) : List Char :=
  let segs := splitOnChar '&' query
  let hit := segs.find? (fun seg =>
    let nm := seg.takeWhile (fun c => c ≠ '=')
    let rest := seg.dropWhile (fun c => c ≠ '=')
    decide (rest ≠ []) && decide (rest.drop 1 ≠ []) && decide (unquotePlus nm = key))
  match hit with
  | some seg => unquotePlus ((seg.dropWhile (fun c => c ≠ '=')).drop 1)
  | none => []

/-- Embedding of _oy_goodsno_from_url (app.py:427-434): extract the first
goodsNo query parameter of the URL, or the empty string. -/
def oy_goodsno_from_url (u : String) : String :=
  match u with
  | "" => ""
  | _ => (parseQsFirst "goodsNo".toList (urlQuery u.toList)).asString

/-- Embedding of _oy_key (app.py:436-442): the stable key of an item is
a fixed marker followed by the goodsNo parsed from the (stripped) url when
present, else the stripped name (falling back to raw_name, then the empty
string). -/
def oy_key (it : Item) : String :=
  let u := pyStripStr (pyOrStr it.url "")
  let g := oy_goodsno_from_url u
  if g ≠ "" then "g:" ++ g
  else pyStripStr (pyOrStr it.name (pyOrStr it.raw_name ""))

/-! Rank assignment: fill_ranks_and_fix (app.py:266-275) and the truncation
performed by main before calling it (app.py:605-606). -/

/-- Loop body of fill_ranks_and_fix: assign the running counter as the rank of
each item in order, stopping after the counter passes MAX_ITEMS (the Python
loop appends the item, increments, and breaks when the counter exceeds
MAX_ITEMS). -/
def fillRanksGo : List Item → Nat → List Item
  | [], _ => []
  | it :: rest, r =>
    let it' : Item := { it with rank := some (r : Int) }
    if r + 1 > MAX_ITEMS then [it']
    else it' :: fillRanksGo rest (r + 1)

/-- Embedding of fill_ranks_and_fix (app.py:266-275). -/
def fill_ranks_and_fix (items : List Item) : List Item :=
  fillRanksGo items 1

/-- Snapshot construction in main (app.py:605-607): truncate to MAX_ITEMS when
longer, then assign sequential ranks. -/
def pipelineItems (items : List Item) : List Item :=
  fill_ranks_and_fix (if items.length > MAX_ITEMS then items.take MAX_ITEMS else items)

/-! Acquisition coordination (main, app.py:596-603): the probe result is used
whenever it is truthy (a non-empty list); the Playwright fallback runs only
when the probe yielded None or an empty list; if both are empty the run
fails. -/

/-- Result of the acquisition step of main. -/
inductive AcqResult where
  | fromProbe (items : List Item)
  | fromFallback (items : List Item)
  | failure
deriving DecidableEq, Repr

/-- Embedding of the acquisition logic of main (app.py:596-603):
try_http_candidates returns None or a non-empty list (it only returns parsed
items guarded by a truthiness check, app.py:227-233); main falls back to
try_playwright_render exactly when the probe result is falsy. -/
def coordinate (probe fallback : Option (List Item)) : AcqResult :=
  let itemsP := probe.getD []
  if itemsP ≠ [] then .fromProbe itemsP
  else
    let itemsF := fallback.getD []
    if itemsF ≠ [] then .fromFallback itemsF else .failure

/-! Python dict model: association lists with insertion order kept and
value overwrite in place, as used for the rank/url/name maps in
build_slack_message_kor (app.py:469-497). -/

/-- Insert or overwrite a key in an insertion-ordered association list,
exactly like assignment into a Python dict: an existing key keeps its
position and gets the new value, a new key is appended. -/
def dinsert {α : Type} (d : List (String × α)) (k : String) (v : α) :
    List (String × α) :=
  if d.any (fun p => p.1 = k) then d.map (fun p => if p.1 = k then (k, v) else p)
  else d ++ [(k, v)]

/-- Embedding of the prev_rank_map construction (app.py:469-479): for each
previous item with a non-empty key, store int(rank or 0). -/
def prevRankMap (prev : List Item) : List (String × Int) :=
  prev.foldl (fun d p =>
    let k := oy_key p
    if k = "" then d else dinsert d k (p.rank.getD 0)) []

/-- Embedding of the prev_url_map construction (app.py:470-481): only truthy
urls are recorded. -/
def prevUrlMap (prev : List Item) : List (String × String) :=
  prev.foldl (fun d p =>
    let k := oy_key p
    if k = "" then d
    else match p.url with
         | some u => if u ≠ "" then dinsert d k u else d
         | none => d) []

/-- Embedding of today_key_rank (app.py:484-495). -/
def todayKeyRank (today : List Item) : List (String × Int) :=
  today.foldl (fun d t =>
    let k := oy_key t
    if k = "" then d else dinsert d k (t.rank.getD 0)) []

/-- Embedding of today_key_url (app.py:485-496). -/
def todayKeyUrl (today : List Item) : List (String × String) :=
  today.foldl (fun d t =>
    let k := oy_key t
    if k = "" then d else dinsert d k (pyOrStr t.url "")) []

/-- Embedding of today_key_name (app.py:486-497). -/
def todayKeyName (today : List Item) : List (String × String) :=
  today.foldl (fun d t =>
    let k := oy_key t
    if k = "" then d else dinsert d k (pyOrStr t.name (pyOrStr t.raw_name ""))) []

/-- One entry of the ups or downs lists of build_slack_message_kor
(app.py:535, 537). -/
structure MoveRec where
  name : String
  url : String
  prev_rank : Int
  rank : Int
  change : Int
deriving DecidableEq, Repr

/-- One entry of the newcomers or outs lists of build_slack_message_kor
(app.py:530, 545). -/
structure EntryRec where
  name : String
  url : String
  rank : Int
deriving DecidableEq, Repr

/-- Classification loop of build_slack_message_kor (app.py:522-537): iterate
the today_key_rank dict in insertion order; a key absent from the previous
map is a newcomer; otherwise delta = prev - cur sends the record to ups when
delta is at least 10, to downs when delta is at most -10, and nowhere
otherwise. -/
def classifyLoop (prevM : List (String × Int))
    (nameM urlM : List (String × String)) :
    List (String × Int) → List MoveRec × List MoveRec × List EntryRec
  | [] => ([], [], [])
  | (k, cur) :: rest =>
    let nm := (nameM.lookup k).getD ""
    let url := (urlM.lookup k).getD ""
    let tail := classifyLoop prevM nameM urlM rest
    match prevM.lookup k with
    | none => (tail.1, tail.2.1, ⟨nm, url, cur⟩ :: tail.2.2)
    | some p =>
      let delta := p - cur
      if delta ≥ 10 then (⟨nm, url, p, cur, delta⟩ :: tail.1, tail.2.1, tail.2.2)
      else if delta ≤ -10 then (tail.1, ⟨nm, url, p, cur, delta⟩ :: tail.2.1, tail.2.2)
      else (tail.1, tail.2.1, tail.2.2)

/-- Risers (ups) computed by build_slack_message_kor before sorting and
truncation for display (app.py:522-535). -/
def upsOf (today prev : List Item) : List MoveRec :=
  (classifyLoop (prevRankMap prev) (todayKeyName today) (todayKeyUrl today)
    (todayKeyRank today)).1

/-- Fallers (downs) computed by build_slack_message_kor (app.py:522-537). -/
def downsOf (today prev : List Item) : List MoveRec :=
  (classifyLoop (prevRankMap prev) (todayKeyName today) (todayKeyUrl today)
    (todayKeyRank today)).2.1

/-- New entrants (newcomers) computed by build_slack_message_kor
(app.py:522-530). -/
def newcomersOf (today prev : List Item) : List EntryRec :=
  (classifyLoop (prevRankMap prev) (todayKeyName today) (todayKeyUrl today)
    (todayKeyRank today)).2.2

/-- Display name used for an OUT record (app.py:543): the stripped name chain
of the first previous item whose key matches, re-stripped; the today-map
fallbacks of the original expression are dead because the key is absent from
today. -/
def outName (prev : List Item) (k : String) : String :=
  pyStripStr (match prev.find? (fun p => oy_key p = k) with
    | some p => pyStripStr (pyOrStr p.name (pyOrStr p.raw_name ""))
    | none => "")

/-- OUT loop of build_slack_message_kor (app.py:539-545): previous keys with
rank between 1 and 100 that are absent from today's keys. -/
def outsLoop (prev : List Item) (urlM : List (String × String))
    (todayKeys : List String) :
    List (String × Int) → List EntryRec
  | [] => []
  | (k, pr) :: rest =>
    if 1 ≤ pr ∧ pr ≤ 100 ∧ ¬ (k ∈ todayKeys) then
      ⟨outName prev k, (urlM.lookup k).getD "", pr⟩ :: outsLoop prev urlM todayKeys rest
    else outsLoop prev urlM todayKeys rest

/-- Dropouts (outs) computed by build_slack_message_kor (app.py:539-545). -/
def outsOf (today prev : List Item) : List EntryRec :=
  outsLoop prev (prevUrlMap prev) ((todayKeyRank today).map Prod.fst)
    (prevRankMap prev)

/-- Set of today's keys within the top-100 window (app.py:559): keys of the
first 100 today items, empty keys dropped. -/
def todayTopKeys (today : List Item) : Finset String :=
  (((today.take 100).map oy_key).filter (fun k => k ≠ "")).toFinset

/-- Set of previous keys within the top-100 window (app.py:560): keys of the
previous rank map whose rank is truthy and at most 100. -/
def prevTopKeys (prev : List Item) : Finset String :=
  (((prevRankMap prev).filter (fun p => p.2 ≠ 0 ∧ p.2 ≤ 100)).map Prod.fst).toFinset

/-- Churn (rank in-and-out) count of build_slack_message_kor (app.py:558-561):
half the cardinality of the symmetric difference of the two key sets. -/
def inoutCount (today prev : List Item) : Nat :=
  (symmDiff (todayTopKeys today) (prevTopKeys prev)).card / 2

/-! Binary64 model for the discount computation. Python evaluates
int((original - sale) / original * 100) in double precision: the integer
subtraction is exact, the division produces the correctly rounded binary64
value of the exact quotient, the multiplication by the exact constant 100
rounds once more, and int() truncates toward zero (equal to the floor here
since the value is non-negative). The model rounds an exact rational to 53
significant bits, round to nearest with ties to even, which is exactly
IEEE-754 binary64 on the normal, non-overflowing range used here. -/

/-- Fuel-driven binary logarithm: natLog2F f n is the floor of log2 n for
any fuel f at least n (each step halves, so a fuel of n always suffices). -/
def natLog2F : Nat → Nat → Nat
  | 0, _ => 0
  | f + 1, n => if 2 ≤ n then natLog2F f (n / 2) + 1 else 0

/-- Floor of the binary logarithm (0 at 0). -/
def natLog2 (n : Nat) : Nat :=
  natLog2F n n

/-- Decision of 2 ^ d ≤ a / b by cross multiplication, for a signed
exponent d. -/
def pow2LE (d : Int) (a b : Nat) : Bool :=
  match d with
  | .ofNat k => decide (b * 2 ^ k ≤ a)
  | .negSucc k => decide (b ≤ a * 2 ^ (k + 1))

/-- Binade exponent of the positive fraction a / b: the integer e with
2 ^ e ≤ a / b < 2 ^ (e + 1), located from the binary logarithms of numerator
and denominator with one correcting comparison. -/
def fexpN (a b : Nat) : Int :=
  let d : Int := (natLog2 a : Int) - (natLog2 b : Int)
  if pow2LE d a b then d else d - 1

/-- Round A / B to the nearest natural number, ties to even. -/
def rneDiv (A B : Nat) : Nat :=
  let n := A / B
  let r := A % B
  if 2 * r < B then n
  else if B < 2 * r then n + 1
  else if n % 2 = 0 then n else n + 1

/-- Binary64 rounding of the positive fraction a / b: the mantissa m and
binade exponent e with rounded value m * 2 ^ (e - 52) (53 significant bits,
round to nearest, ties to even — exactly IEEE-754 binary64 on the normal,
non-overflowing range used here). -/
def roundMantissa (a b : Nat) : Nat × Int :=
  let e := fexpN a b
  let m := match 52 - e with
    | .ofNat k => rneDiv (a * 2 ^ k) b
    | .negSucc k => rneDiv a (b * 2 ^ (k + 1))
  (m, e)

/-- The value m * 2 ^ (e - 52) as a fraction of naturals. -/
def mantissaFrac (m : Nat) (e : Int) : Nat × Nat :=
  match e - 52 with
  | .ofNat k => (m * 2 ^ k, 1)
  | .negSucc k => (m, 2 ^ (k + 1))

/-- Value of int((o - s) / o * 100) as Python computes it in binary64, for
o > s > 0: the division rounds the exact quotient once, the multiplication by
the exact constant 100 rounds once more, and int() truncates (the floor, as
the value is non-negative). -/
def discFloat (o s : Nat) : Int :=
  let p := roundMantissa (o - s) o
  let f := mantissaFrac p.1 p.2
  let q := roundMantissa (f.1 * 100) f.2
  let g := mantissaFrac q.1 q.2
  ((g.1 / g.2 : Nat) : Int)

/-- Embedding of the discount computation (app.py:150-153 and 213-215):
disc_pct is None unless both prices are truthy (present and non-zero) and
original > sale, in which case it is the binary64 evaluation of
int((original - sale) / original * 100). -/
def disc_pct_of (original_price sale_price : Option Nat) : Option Int :=
  match original_price, sale_price with
  | some o, some s =>
    if o ≠ 0 ∧ s ≠ 0 ∧ s < o then some (discFloat o s) else none
  | _, _ => none

/-- Exact value floor((original - sale) / original * 100) named by the spec
for computeDiscountPct (spec section 4.1). Modelled from the spec: the spec
describes the discount as an exact floor, with no floating-point rounding. -/
def computeDiscountPct_spec (o s : Nat) : Int :=
  ((o - s) * 100) / o

/-! Outcome model of main (app.py:588-695) for the notification step. -/

/-- Number of required positional parameters of build_slack_message_kor:
date_str, today_items, prev_items, total_count, none with a default
(app.py:454-459). -/
def buildSlackRequiredParams : Nat := 4

/-- Number of positional arguments main passes at the notification call site:
items_filled, prev_items or [], now_kst (app.py:691). -/
def mainNotifyGivenArgs : Nat := 3

/-- Python call with a fixed positional arity succeeds exactly when the
argument count matches the parameter count; otherwise it raises TypeError. -/
def pyCallArityOk (required given : Nat) : Bool :=
  required = given

/-- Coarse outcome of one run of main: return 1 after a scraping failure
(app.py:603), an uncaught TypeError, or return 0 (app.py:695). -/
inductive MainOutcome where
  | retFailure
  | typeError
  | ret0
deriving DecidableEq, Repr

/-- Embedding of the control flow of main (app.py:588-695) at the outcome
level: a failed acquisition returns 1; otherwise the run reaches the
notification call (app.py:691), which raises TypeError when the arity is
wrong, and only a successful call lets main return 0. The snapshot build,
CSV save, upload and previous-day load between acquisition and notification
do not change which of these outcomes is reached (their failures are caught
or only skip steps). -/
def mainRun (probe fallback : Option (List Item)) : MainOutcome :=
  match coordinate probe fallback with
  | .failure => .retFailure
  | _ =>
    if pyCallArityOk buildSlackRequiredParams mainNotifyGivenArgs then .ret0
    else .typeError

/-! Embedding of clean_title (app.py:83-91). The function strips the raw
string, then applies three anchored regex substitutions (leading bracket
groups, leading pipe-separated segments of at most 40 characters, a leading
promotional keyword with optional separator) and finally collapses whitespace
runs to single spaces and strips again. The anchored patterns have no
constraints after their repetitions, so backtracking never revisits an
earlier group and the greedy semantics is the deterministic first-fit loop
modelled here. -/

/-- One group of the pattern matching a leading bracket tag: an opening
bracket, any characters other than a closing bracket, the closing bracket,
then trailing whitespace. Returns the remainder, or none when the group does
not match. -/
def bracketGroup (t : List Char) : Option (List Char) :=
  match t with
  | '[' :: rest =>
    match rest.dropWhile (fun c => c ≠ ']') with
    | _ :: b => some (b.dropWhile isPySpace)
    | [] => none
  | _ => none

/-- One group of the pattern matching a leading pipe segment: one to forty
characters that are neither a pipe nor a newline, a pipe, then trailing
whitespace. -/
def pipeGroup (t : List Char) : Option (List Char) :=
  let pre := t.takeWhile (fun c => c ≠ '|' ∧ c ≠ '\n')
  match t.drop pre.length with
  | '|' :: r =>
    if 1 ≤ pre.length ∧ pre.length ≤ 40 then some (r.dropWhile isPySpace)
    else none
  | _ => none

/-- Repeat a group matcher while it succeeds (the fuel bounds the number of
repetitions; each successful group consumes at least one character, so a fuel
equal to the current length never runs out before the matcher fails). -/
def groupsLoop (g : List Char → Option (List Char)) : Nat → List Char → List Char
  | 0, t => t
  | f + 1, t =>
    match g t with
    | some r => groupsLoop g f r
    | none => t

/-- Anchored substitution of one-or-more leading groups after optional
whitespace: when at least one group matches, the whole match (leading
whitespace included) is removed; otherwise the string is unchanged. -/
def stripGroups (g : List Char → Option (List Char)) (s : List Char) : List Char :=
  let t := s.dropWhile isPySpace
  match g t with
  | some r => groupsLoop g t.length r
  | none => s

/-- Stage removing leading bracketed tags (app.py:87). -/
def stripBrackets (s : List Char) : List Char :=
  stripGroups bracketGroup s

/-- Stage removing leading pipe-separated promotional segments (app.py:88). -/
def stripPipes (s : List Char) : List Char :=
  stripGroups pipeGroup s

/-- ASCII lower-casing, the only case folding the promotional-keyword pattern
needs (its alphabetic alternatives are ASCII). -/
def lowerAscii (c : Char) : Char :=
  if 'A' ≤ c ∧ c ≤ 'Z' then Char.ofNat (c.toNat + 32) else c

/-- Case-insensitive (ASCII) prefix test. -/
def ciMatches (pat : List Char) (t : List Char) : Bool :=
  decide ((t.take pat.length).map lowerAscii = pat.map lowerAscii)

/-- Length consumed by the greedy alternative matching any run of non-space
characters ending in PICK (case-insensitive): the largest split of the
leading non-space run placing PICK at its end wins, as regex backtracking
shrinks the greedy star from the longest candidate. -/
def pickSuffixLen (t : List Char) : Option Nat :=
  let run := t.takeWhile (fun c => ¬ isPySpace c)
  let n := run.length
  let idxs := (List.range (n + 1)).filter
    (fun i => i + 4 ≤ n ∧ ciMatches "PICK".toList (run.drop i))
  match idxs.max? with
  | some i => some (i + 4)
  | none => none

/-- Ordered alternation of the promotional-keyword pattern (app.py:89); the
tail of the pattern always matches, so the first alternative that matches at
the start wins. Returns the number of characters the alternation consumes. -/
def promoMatch (t : List Char) : Option Nat :=
  if ciMatches "리뷰 이벤트".toList t then some ("리뷰 이벤트".toList.length)
  else if ciMatches "PICK".toList t then some 4
  else if ciMatches "오특".toList t then some 2
  else if ciMatches "이벤트".toList t then some 3
  else if ciMatches "특가".toList t then some 2
  else pickSuffixLen t

/-- Stage removing a leading promotional keyword with its optional separator
(app.py:89): optional whitespace, the alternation, optional whitespace, an
optional colon or dash (ASCII hyphen, en dash or em dash), optional
whitespace. -/
def stripPromo (s : List Char) : List Char :=
  let t := s.dropWhile isPySpace
  match promoMatch t with
  | some n =>
    let r1 := (t.drop n).dropWhile isPySpace
    let r2 := match r1 with
      | c :: cs => if c = ':' ∨ c = '-' ∨ c = '–' ∨ c = '—' then cs else r1
      | [] => r1
    r2.dropWhile isPySpace
  | none => s

/-- Scanner substituting every whitespace run by a single space: the Boolean
records whether the scan is inside a whitespace run (in which case further
whitespace is dropped rather than emitted). -/
def subWsAux : Bool → List Char → List Char
  | _, [] => []
  | inRun, c :: cs =>
    if isPySpace c then
      if inRun then subWsAux true cs
      else ' ' :: subWsAux true cs
    else c :: subWsAux false cs

/-- Substitution of every whitespace run by a single space (app.py:90,
before the final strip). -/
def subWs (l : List Char) : List Char :=
  subWsAux false l

/-- Final whitespace normalization of clean_title (app.py:90): collapse runs,
then strip. -/
def wsNormalize (s : List Char) : List Char :=
  pyStrip (subWs s)

/-- Embedding of clean_title (app.py:83-91) on character lists: empty input
maps to empty, otherwise strip, the three anchored substitutions in order,
and whitespace normalization. -/
def cleanTitleL (l : List Char) : List Char :=
  match l with
  | [] => []
  | _ => wsNormalize (stripPromo (stripPipes (stripBrackets (pyStrip l))))

/-- Embedding of clean_title (app.py:83-91) on strings. -/
def clean_title (raw : String) : String :=
  (cleanTitleL raw.toList).asString

/-! General lemmas about the embedded definitions. -/

/-- The stable key of an item ignores the rank field. -/
theorem oy_key_set_rank (it : Item) (v : Option Int) :
    oy_key { it with rank := v } = oy_key it := rfl

/-- Ranks produced by the fill loop: starting the counter at r (at most
MAX_ITEMS), the loop emits the consecutive ranks r, r+1, ... until the items
or the budget MAX_ITEMS + 1 - r run out. -/
theorem fillRanksGo_map_rank (xs : List Item) :
    ∀ r : Nat, r ≤ MAX_ITEMS →
      (fillRanksGo xs r).map Item.rank
        = (List.range' r (min xs.length (MAX_ITEMS + 1 - r))).map
            (fun n : Nat => some (Int.ofNat n)) := by
  induction xs with
  | nil => intro r _; simp [fillRanksGo]
  | cons it rest ih =>
    intro r hr
    by_cases h : r + 1 > MAX_ITEMS
    · have hr100 : r = MAX_ITEMS := by omega
      have hmin : min (rest.length + 1) (MAX_ITEMS + 1 - r) = 1 := by omega
      simp [fillRanksGo, h, hr100, List.range']
    · have h' : r + 1 ≤ MAX_ITEMS := by omega
      have hmin : min ((it :: rest).length) (MAX_ITEMS + 1 - r)
          = min rest.length (MAX_ITEMS + 1 - (r + 1)) + 1 := by
        simp only [List.length_cons]; omega
      rw [fillRanksGo]
      simp only [h, if_false, List.map_cons, ih (r + 1) h', hmin, List.range']
      simp

/-- Keys produced by the fill loop: rank assignment preserves the items (and
hence their keys) up to the budget truncation. -/
theorem fillRanksGo_map_key (xs : List Item) :
    ∀ r : Nat, r ≤ MAX_ITEMS →
      (fillRanksGo xs r).map oy_key
        = (xs.take (MAX_ITEMS + 1 - r)).map oy_key := by
  induction xs with
  | nil => intro r _; simp [fillRanksGo]
  | cons it rest ih =>
    intro r hr
    by_cases h : r + 1 > MAX_ITEMS
    · have htake : MAX_ITEMS + 1 - r = 1 := by omega
      simp [fillRanksGo, h, htake, oy_key_set_rank]
    · have h' : r + 1 ≤ MAX_ITEMS := by omega
      have htake : MAX_ITEMS + 1 - r = (MAX_ITEMS + 1 - (r + 1)) + 1 := by omega
      rw [fillRanksGo]
      simp only [h, if_false, List.map_cons, ih (r + 1) h', htake, List.take_succ_cons,
        oy_key_set_rank]

/-- Ranks of the snapshot built by main: exactly 1..N in order, where N is the
length capped at MAX_ITEMS. -/
theorem pipelineItems_map_rank (items : List Item) :
    (pipelineItems items).map Item.rank
      = (List.range' 1 (min items.length MAX_ITEMS)).map (fun n : Nat => some (Int.ofNat n)) := by
  unfold pipelineItems fill_ranks_and_fix
  by_cases h : items.length > MAX_ITEMS
  · rw [if_pos h, fillRanksGo_map_rank _ 1 (by norm_num [MAX_ITEMS])]
    have hm : min (items.take MAX_ITEMS).length (MAX_ITEMS + 1 - 1)
        = min items.length MAX_ITEMS := by
      simp only [List.length_take]
      omega
    rw [hm]
  · rw [if_neg h, fillRanksGo_map_rank _ 1 (by norm_num [MAX_ITEMS])]
    have hm : min items.length (MAX_ITEMS + 1 - 1) = min items.length MAX_ITEMS := by
      omega
    rw [hm]

/-- Keys of the snapshot built by main: rank assignment touches nothing but
the rank, so the key sequence is that of the first MAX_ITEMS raw items. -/
theorem pipelineItems_map_key (items : List Item) :
    (pipelineItems items).map oy_key = (items.take MAX_ITEMS).map oy_key := by
  unfold pipelineItems fill_ranks_and_fix
  by_cases h : items.length > MAX_ITEMS
  · rw [if_pos h, fillRanksGo_map_key _ 1 (by norm_num [MAX_ITEMS])]
    simp [MAX_ITEMS, List.take_take]
  · rw [if_neg h, fillRanksGo_map_key _ 1 (by norm_num [MAX_ITEMS])]
    norm_num

/-! Concrete fixtures used by counterexamples and witnesses. -/

/-- Raw record with a product URL carrying goodsNo A000000001. -/
def dupUrlItemA : Item :=
  { name := some "Cream A",
    url := some "https://www.oliveyoung.co.kr/store/goods/getGoodsDetail.do?goodsNo=A000000001" }

/-- Different display name, same goodsNo as dupUrlItemA, hence same stable key. -/
def dupUrlItemB : Item :=
  { name := some "Cream A (retitled)",
    url := some "https://www.oliveyoung.co.kr/store/goods/getGoodsDetail.do?goodsNo=A000000001" }

/-- Probe result of exactly three items. -/
def probeThreeItems : List Item :=
  [{ name := some "P1" }, { name := some "P2" }, { name := some "P3" }]

/-- Representative non-empty fallback result. -/
def fallbackItems : List Item :=
  [{ name := some "F1" }]

/-- C1 counterexample: the acquisition pipeline performs no stable-key
deduplication, so two raw records with the same goodsNo survive into the
snapshot and its stableKey values are not pairwise distinct. -/
theorem claim_C1_counterexample :
    ¬ (((pipelineItems [dupUrlItemA, dupUrlItemB]).map oy_key).Nodup) := by
  decide

/-- C1 (amended): the pipeline preserves the stable keys of the first
MAX_ITEMS raw records verbatim — no collapse to the first occurrence happens —
so a snapshot's stableKey values are pairwise distinct exactly when the keys
of the truncated raw records already were. -/
theorem claim_C1_amended (items : List Item) :
    (pipelineItems items).map oy_key = (items.take MAX_ITEMS).map oy_key ∧
    (((pipelineItems items).map oy_key).Nodup
      ↔ ((items.take MAX_ITEMS).map oy_key).Nodup) := by
  refine ⟨pipelineItems_map_key items, ?_⟩
  rw [pipelineItems_map_key items]

/-- C2: a snapshot's rank values are exactly 1..N in order of final sequence
position (any scraped rank text in the input rank fields is overwritten),
with N = min(raw count, MAX_ITEMS) and N at most MAX_ITEMS = 100. -/
theorem claim_C2 (items : List Item) :
    (pipelineItems items).map Item.rank
      = (List.range' 1 (min items.length MAX_ITEMS)).map (fun n : Nat => some (Int.ofNat n))
    ∧ (pipelineItems items).length = min items.length MAX_ITEMS
    ∧ (pipelineItems items).length ≤ MAX_ITEMS := by
  have h := pipelineItems_map_rank items
  have hlen : (pipelineItems items).length = min items.length MAX_ITEMS := by
    have hl := congrArg List.length h
    rw [List.length_map, List.length_map, List.length_range'] at hl
    exact hl
  exact ⟨h, hlen, by omega⟩

/-- C4 counterexample: a probe returning three items (below the claimed
minimum-viable threshold of five) is accepted directly; the coordinator
returns the probe result and never reaches the fallback. -/
theorem claim_C4_counterexample :
    probeThreeItems.length = 3 ∧
    coordinate (some probeThreeItems) (some fallbackItems)
      = AcqResult.fromProbe probeThreeItems := by
  exact ⟨rfl, rfl⟩

/-- C4 (amended): the coordinator triggers the rendered-page fallback only
when the probe yields nothing at all; any non-empty probe result, of any
size, is accepted and returned directly. -/
theorem claim_C4_amended (probe fallback : Option (List Item)) (items : List Item)
    (hp : probe = some items) (hne : items ≠ []) :
    coordinate probe fallback = AcqResult.fromProbe items := by
  subst hp
  simp [coordinate, hne]

/-- Witness for claim_C4_amended at a concrete three-item probe. -/
theorem claim_C4_witness :
    coordinate (some probeThreeItems) none = AcqResult.fromProbe probeThreeItems :=
  claim_C4_amended (some probeThreeItems) none probeThreeItems rfl (by decide)

/-- C5: whenever acquisition succeeds, main reaches the notification call,
which passes three positional arguments to the four-parameter
build_slack_message_kor and therefore raises TypeError; main never returns 0. -/
theorem claim_C5 (probe fallback : Option (List Item)) :
    mainRun probe fallback ≠ MainOutcome.ret0 ∧
    (coordinate probe fallback ≠ AcqResult.failure →
      mainRun probe fallback = MainOutcome.typeError) := by
  constructor
  · cases h : coordinate probe fallback <;>
      simp [mainRun, h, pyCallArityOk, buildSlackRequiredParams, mainNotifyGivenArgs]
  · intro hne
    cases h : coordinate probe fallback
    · simp [mainRun, h, pyCallArityOk, buildSlackRequiredParams, mainNotifyGivenArgs]
    · simp [mainRun, h, pyCallArityOk, buildSlackRequiredParams, mainNotifyGivenArgs]
    · exact absurd h hne

/-- Witness for claim_C5 at a concrete successful probe. -/
theorem claim_C5_witness :
    mainRun (some probeThreeItems) none = MainOutcome.typeError :=
  (claim_C5 (some probeThreeItems) none).2 (by decide)

/-! Lemmas about the trend classification loop. -/

/-- With an empty previous map every key is classified as a newcomer and
nothing as a riser or faller. -/
theorem classifyLoop_no_prev (nameM urlM : List (String × String)) :
    ∀ d : List (String × Int),
      classifyLoop [] nameM urlM d
        = ([], [], d.map (fun q =>
            (⟨(nameM.lookup q.1).getD "", (urlM.lookup q.1).getD "", q.2⟩ : EntryRec))) := by
  intro d
  induction d with
  | nil => rfl
  | cons hd tl ih =>
    obtain ⟨k, cur⟩ := hd
    simp [classifyLoop, ih]

/-- Membership in the risers list produced by the classification loop. -/
theorem classifyLoop_ups_mem (prevM : List (String × Int))
    (nameM urlM : List (String × String)) (k : String) (cur p : Int)
    (hlk : prevM.lookup k = some p) (hdel : 10 ≤ p - cur) :
    ∀ d : List (String × Int), (k, cur) ∈ d →
      (⟨(nameM.lookup k).getD "", (urlM.lookup k).getD "", p, cur, p - cur⟩ : MoveRec)
        ∈ (classifyLoop prevM nameM urlM d).1 := by
  intro d
  induction d with
  | nil => intro h; simp at h
  | cons hd tl ih =>
    intro hmem
    obtain ⟨k', cur'⟩ := hd
    rcases List.mem_cons.mp hmem with heq | htl
    · obtain ⟨hk, hc⟩ := Prod.mk.injEq .. ▸ heq
      subst hk; subst hc
      simp [classifyLoop, hlk, hdel]
    · have hin := ih htl
      rcases hpk : prevM.lookup k' with _ | p'
      · simpa [classifyLoop, hpk] using hin
      · by_cases h1 : 10 ≤ p' - cur'
        · simp only [classifyLoop, hpk]
          simp only [h1, if_pos, ge_iff_le]
          exact List.mem_cons_of_mem _ hin
        · by_cases h2 : p' - cur' ≤ -10
          · simpa [classifyLoop, hpk, h1, h2] using hin
          · simpa [classifyLoop, hpk, h1, h2] using hin

/-- Membership in the fallers list produced by the classification loop. -/
theorem classifyLoop_downs_mem (prevM : List (String × Int))
    (nameM urlM : List (String × String)) (k : String) (cur p : Int)
    (hlk : prevM.lookup k = some p) (hdel : p - cur ≤ -10) :
    ∀ d : List (String × Int), (k, cur) ∈ d →
      (⟨(nameM.lookup k).getD "", (urlM.lookup k).getD "", p, cur, p - cur⟩ : MoveRec)
        ∈ (classifyLoop prevM nameM urlM d).2.1 := by
  intro d
  induction d with
  | nil => intro h; simp at h
  | cons hd tl ih =>
    intro hmem
    obtain ⟨k', cur'⟩ := hd
    rcases List.mem_cons.mp hmem with heq | htl
    · obtain ⟨hk, hc⟩ := Prod.mk.injEq .. ▸ heq
      subst hk; subst hc
      have h1 : ¬ (10 ≤ p - cur) := by omega
      simp [classifyLoop, hlk, h1, hdel]
    · have hin := ih htl
      rcases hpk : prevM.lookup k' with _ | p'
      · simpa [classifyLoop, hpk] using hin
      · by_cases h1 : 10 ≤ p' - cur'
        · simpa [classifyLoop, hpk, h1] using hin
        · by_cases h2 : p' - cur' ≤ -10
          · simp only [classifyLoop, hpk]
            simp only [h1, h2, if_neg, if_pos, ge_iff_le]
            exact List.mem_cons_of_mem _ hin
          · simpa [classifyLoop, hpk, h1, h2] using hin

/-- Every riser record carries its rank delta as change, and that change is at
least the threshold 10. -/
theorem classifyLoop_ups_inv (prevM : List (String × Int))
    (nameM urlM : List (String × String)) :
    ∀ d : List (String × Int), ∀ m ∈ (classifyLoop prevM nameM urlM d).1,
      m.change = m.prev_rank - m.rank ∧ 10 ≤ m.change := by
  intro d
  induction d with
  | nil => intro m hm; simp [classifyLoop] at hm
  | cons hd tl ih =>
    intro m hm
    obtain ⟨k', cur'⟩ := hd
    rcases hpk : prevM.lookup k' with _ | p'
    · exact ih m (by simpa [classifyLoop, hpk] using hm)
    · by_cases h1 : 10 ≤ p' - cur'
      · rw [classifyLoop] at hm
        simp only [hpk, h1, if_pos, ge_iff_le] at hm
        rcases List.mem_cons.mp hm with heq | htl
        · subst heq; exact ⟨rfl, h1⟩
        · exact ih m htl
      · by_cases h2 : p' - cur' ≤ -10
        · exact ih m (by simpa [classifyLoop, hpk, h1, h2] using hm)
        · exact ih m (by simpa [classifyLoop, hpk, h1, h2] using hm)

/-- Every faller record carries its rank delta as change, and that change is at
most the negated threshold -10. -/
theorem classifyLoop_downs_inv (prevM : List (String × Int))
    (nameM urlM : List (String × String)) :
    ∀ d : List (String × Int), ∀ m ∈ (classifyLoop prevM nameM urlM d).2.1,
      m.change = m.prev_rank - m.rank ∧ m.change ≤ -10 := by
  intro d
  induction d with
  | nil => intro m hm; simp [classifyLoop] at hm
  | cons hd tl ih =>
    intro m hm
    obtain ⟨k', cur'⟩ := hd
    rcases hpk : prevM.lookup k' with _ | p'
    · exact ih m (by simpa [classifyLoop, hpk] using hm)
    · by_cases h1 : 10 ≤ p' - cur'
      · exact ih m (by simpa [classifyLoop, hpk, h1] using hm)
      · by_cases h2 : p' - cur' ≤ -10
        · rw [classifyLoop] at hm
          simp only [hpk, h1, h2, if_neg, if_pos, ge_iff_le] at hm
          rcases List.mem_cons.mp hm with heq | htl
          · subst heq; exact ⟨rfl, h2⟩
          · exact ih m htl
        · exact ih m (by simpa [classifyLoop, hpk, h1, h2] using hm)

/-- Two-item current snapshot used for the first-run (empty previous)
scenario. -/
def firstRunToday : List Item :=
  [{ name := some "N1", rank := some 1,
     url := some "https://www.oliveyoung.co.kr/x?goodsNo=A1" },
   { name := some "N2", rank := some 2,
     url := some "https://www.oliveyoung.co.kr/x?goodsNo=A2" }]

/-- C3 counterexample: with an absent (empty) previous snapshot the trend
computation does not leave every category empty — every current entry becomes
a new entrant and the churn count is half the number of current keys, here 1,
not 0. -/
theorem claim_C3_counterexample :
    newcomersOf firstRunToday [] ≠ [] ∧ inoutCount firstRunToday [] ≠ 0 := by
  constructor
  · decide
  · decide

/-- C3 (amended): with an absent (empty) previous snapshot, risers, fallers
and dropouts are empty, but every entry of the current key map is emitted as a
new entrant and the churn count is half the size of the current top-window key
set rather than zero. -/
theorem claim_C3_amended (today : List Item) :
    upsOf today [] = [] ∧ downsOf today [] = [] ∧ outsOf today [] = [] ∧
    newcomersOf today []
      = (todayKeyRank today).map (fun q =>
          (⟨((todayKeyName today).lookup q.1).getD "",
            ((todayKeyUrl today).lookup q.1).getD "", q.2⟩ : EntryRec)) ∧
    inoutCount today [] = (todayTopKeys today).card / 2 := by
  have hprev : prevRankMap [] = [] := rfl
  refine ⟨?_, ?_, ?_, ?_, ?_⟩
  · unfold upsOf
    rw [hprev, classifyLoop_no_prev]
  · unfold downsOf
    rw [hprev, classifyLoop_no_prev]
  · rfl
  · unfold newcomersOf
    rw [hprev, classifyLoop_no_prev]
  · unfold inoutCount
    have h0 : prevTopKeys [] = (⊥ : Finset String) := rfl
    rw [h0, symmDiff_bot]

/-- Current item: product P at rank 5 today. -/
def todayRank5 : List Item :=
  [{ name := some "Product P", rank := some 5,
     url := some "https://www.oliveyoung.co.kr/x?goodsNo=P0001" }]

/-- Previous item: the same product P at rank 50 yesterday. -/
def prevRank50 : List Item :=
  [{ name := some "Product P", rank := some 50,
     url := some "https://www.oliveyoung.co.kr/x?goodsNo=P0001" }]

/-- C8: for a key in both rank maps with delta = previousRank - currentRank
and threshold 10, delta at least 10 puts the record (with change = delta) in
risers, delta at most -10 puts it in fallers, and a delta strictly between
-10 and 10 (including 0) yields no record with that previous/current rank
pair in either list. -/
theorem claim_C8 (today prev : List Item) (k : String) (cur p : Int)
    (hmem : (k, cur) ∈ todayKeyRank today)
    (hlk : (prevRankMap prev).lookup k = some p) :
    (10 ≤ p - cur →
      (⟨((todayKeyName today).lookup k).getD "",
        ((todayKeyUrl today).lookup k).getD "", p, cur, p - cur⟩ : MoveRec)
        ∈ upsOf today prev) ∧
    (p - cur ≤ -10 →
      (⟨((todayKeyName today).lookup k).getD "",
        ((todayKeyUrl today).lookup k).getD "", p, cur, p - cur⟩ : MoveRec)
        ∈ downsOf today prev) ∧
    (-10 < p - cur → p - cur < 10 →
      (∀ m ∈ upsOf today prev, ¬ (m.prev_rank = p ∧ m.rank = cur)) ∧
      (∀ m ∈ downsOf today prev, ¬ (m.prev_rank = p ∧ m.rank = cur))) := by
  refine ⟨?_, ?_, ?_⟩
  · intro hdel
    exact classifyLoop_ups_mem _ _ _ k cur p hlk hdel _ hmem
  · intro hdel
    exact classifyLoop_downs_mem _ _ _ k cur p hlk hdel _ hmem
  · intro hlo hhi
    constructor
    · intro m hm ⟨hp, hc⟩
      obtain ⟨hch, hge⟩ := classifyLoop_ups_inv _ _ _ _ m hm
      rw [hch, hp, hc] at hge
      omega
    · intro m hm ⟨hp, hc⟩
      obtain ⟨hch, hle⟩ := classifyLoop_downs_inv _ _ _ _ m hm
      rw [hch, hp, hc] at hle
      omega

/-- Witness for claim_C8: product P moving from rank 50 to rank 5 appears in
risers with reported delta 45. -/
theorem claim_C8_witness :
    (⟨"Product P", "https://www.oliveyoung.co.kr/x?goodsNo=P0001",
      50, 5, 45⟩ : MoveRec) ∈ upsOf todayRank5 prevRank50 := by
  have h := (claim_C8 todayRank5 prevRank50 "g:P0001" 5 50
    (by decide) (by decide)).1 (by decide)
  exact h

/-- Previous snapshot whose keys (B1, B2) are disjoint from firstRunToday's
keys (A1, A2). -/
def churnPrevDisjoint : List Item :=
  [{ name := some "B1", rank := some 1,
     url := some "https://www.oliveyoung.co.kr/x?goodsNo=B1" },
   { name := some "B2", rank := some 2,
     url := some "https://www.oliveyoung.co.kr/x?goodsNo=B2" }]

/-- Previous snapshot with the same key set as firstRunToday (A1, A2) at
other ranks. -/
def churnPrevSame : List Item :=
  [{ name := some "N1", rank := some 7,
     url := some "https://www.oliveyoung.co.kr/x?goodsNo=A1" },
   { name := some "N2", rank := some 9,
     url := some "https://www.oliveyoung.co.kr/x?goodsNo=A2" }]

/-- C9: the churn count is half the cardinality of the symmetric difference of
the two top-window key sets: two disjoint key sets of equal size n give churn
n, and equal key sets give churn 0. -/
theorem claim_C9 (today prev : List Item) (n : Nat) :
    ((todayTopKeys today).card = n → (prevTopKeys prev).card = n →
      Disjoint (todayTopKeys today) (prevTopKeys prev) →
      inoutCount today prev = n) ∧
    (todayTopKeys today = prevTopKeys prev → inoutCount today prev = 0) := by
  constructor
  · intro h1 h2 hd
    unfold inoutCount
    rw [hd.symmDiff_eq_sup, Finset.sup_eq_union, Finset.card_union_of_disjoint hd, h1, h2]
    omega
  · intro he
    unfold inoutCount
    rw [he, symmDiff_self]
    simp

/-- Witness for claim_C9: two disjoint two-key snapshots give churn 2; a
previous snapshot with the same key set gives churn 0. -/
theorem claim_C9_witness :
    inoutCount firstRunToday churnPrevDisjoint = 2 ∧
    inoutCount firstRunToday churnPrevSame = 0 := by
  constructor
  · exact (claim_C9 firstRunToday churnPrevDisjoint 2).1 (by decide) (by decide)
      (Finset.disjoint_left.mpr (by decide))
  · exact (claim_C9 firstRunToday churnPrevSame 0).2 (by decide)

/-- ASCII punctuation for the spec's notion of normalization: a printable
ASCII character that is neither alphanumeric nor whitespace. -/
def isSpecPunct (c : Char) : Bool :=
  c.toNat < 128 && !c.isAlphanum && !(isPySpace c)

/-- Normalization of a display name as the spec words it for the identity
resolver fallback. Modelled from the spec: lower-cased, punctuation and
whitespace collapsed; the code has no such normalization, which this
definition exists to witness. -/
def specNormalizeName (s : String) : String :=
  (wsNormalize ((s.toList.map Char.toLower).map
    (fun c => if isSpecPunct c then ' ' else c))).asString

/-- C6 counterexample: with no product identifier in the URL, the resolver
returns the display name merely stripped of surrounding whitespace, not the
lower-cased punctuation-and-whitespace-collapsed normalization the claim
describes. -/
theorem claim_C6_counterexample :
    oy_key ({ name := some "Hello World" } : Item) = "Hello World" ∧
    specNormalizeName "Hello World" = "hello world" ∧
    oy_key ({ name := some "Hello World" } : Item) ≠ specNormalizeName "Hello World" := by
  refine ⟨by decide, by decide, by decide⟩

/-- C6 (amended): the resolver parses the query of the (stripped) URL for the
goodsNo parameter and, when present, returns it prefixed with the fixed
marker; otherwise it returns the display name (name, else raw name, else
empty) with surrounding whitespace stripped and no further normalization. -/
theorem claim_C6_amended (it : Item) :
    (oy_goodsno_from_url (pyStripStr (pyOrStr it.url "")) ≠ "" →
      oy_key it = "g:" ++ oy_goodsno_from_url (pyStripStr (pyOrStr it.url ""))) ∧
    (oy_goodsno_from_url (pyStripStr (pyOrStr it.url "")) = "" →
      oy_key it = pyStripStr (pyOrStr it.name (pyOrStr it.raw_name ""))) := by
  unfold oy_key
  constructor <;> intro h <;> simp [h]

/-- Witness for claim_C6_amended on both branches: a URL carrying goodsNo C1
and an item with no URL. -/
theorem claim_C6_witness :
    oy_key ({ url := some "https://www.oliveyoung.co.kr/x?goodsNo=C1" } : Item) = "g:C1" ∧
    oy_key ({ name := some " Hello World " } : Item) = "Hello World" := by
  constructor
  · exact (claim_C6_amended _).1 (by decide)
  · exact (claim_C6_amended _).2 (by decide)

/-! Machinery for the idempotence analysis of clean_title: the final
whitespace-normalization stage is idempotent, and stripping is idempotent, so
a cleaned title is re-cleaned to itself exactly when the three prefix
stripping stages leave it unchanged. -/

/-- The chain property of having no two adjacent whitespace characters. -/
def noTwoWs (u : List Char) : Prop :=
  u.Chain' (fun a b => ¬ (isPySpace a = true ∧ isPySpace b = true))

/-- Dropping a satisfied prefix twice is the same as dropping it once. -/
theorem dropWhile_idem (p : Char → Bool) (l : List Char) :
    (l.dropWhile p).dropWhile p = l.dropWhile p := by
  induction l with
  | nil => rfl
  | cons c cs ih =>
    by_cases h : p c
    · simp [List.dropWhile_cons, h, ih]
    · simp [List.dropWhile_cons, h]

/-- Dropping a satisfied suffix twice is the same as dropping it once. -/
theorem rdropWhile_idem (p : Char → Bool) (l : List Char) :
    (l.rdropWhile p).rdropWhile p = l.rdropWhile p := by
  simp [List.rdropWhile, List.reverse_reverse, dropWhile_idem]

/-- The head surviving a dropWhile does not satisfy the predicate. -/
theorem head_dropWhile_not (p : Char → Bool) (l : List Char) :
    ∀ c ∈ (l.dropWhile p).head?, p c = false := by
  induction l with
  | nil => simp
  | cons c cs ih =>
    by_cases h : p c
    · simpa [List.dropWhile_cons, h] using ih
    · intro d hd
      simp [List.dropWhile_cons, h] at hd
      subst hd
      simpa using h

/-- Restatement: the right-trimmed list is an initial segment of the list. -/
theorem rdropWhile_pref (p : Char → Bool) (l : List Char) : l.rdropWhile p <+: l :=
  List.rdropWhile_prefix p l

/-- A right-trim after a left-trim leaves nothing more to left-trim. -/
theorem dropWhile_rdropWhile_dropWhile (p : Char → Bool) (l : List Char) :
    ((l.dropWhile p).rdropWhile p).dropWhile p = (l.dropWhile p).rdropWhile p := by
  obtain ⟨rest, hrest⟩ := rdropWhile_pref p (l.dropWhile p)
  cases hy : (l.dropWhile p).rdropWhile p with
  | nil => rfl
  | cons c t =>
    rw [List.dropWhile_cons]
    have hhd : (l.dropWhile p).head? = some c := by
      rw [← hrest, hy]
      rfl
    have := head_dropWhile_not p l c (by rw [hhd]; rfl)
    simp [this]

/-- Python strip is idempotent. -/
theorem pyStrip_idem (l : List Char) : pyStrip (pyStrip l) = pyStrip l := by
  unfold pyStrip
  rw [dropWhile_rdropWhile_dropWhile, rdropWhile_idem]

/-- The scanner in in-run state emits a non-whitespace character first. -/
theorem subWsAux_true_head (l : List Char) :
    ∀ c ∈ (subWsAux true l).head?, isPySpace c = false := by
  induction l with
  | nil => simp [subWsAux]
  | cons c cs ih =>
    by_cases h : isPySpace c
    · simpa [subWsAux, h] using ih
    · intro d hd
      simp [subWsAux, h] at hd
      subst hd
      simpa using h

/-- Characters of the collapsed output that are whitespace are single spaces. -/
theorem subWsAux_mem (l : List Char) :
    ∀ b : Bool, ∀ c ∈ subWsAux b l, isPySpace c = true → c = ' ' := by
  induction l with
  | nil => intro b c hc; simp [subWsAux] at hc
  | cons c cs ih =>
    intro b d hd hp
    by_cases h : isPySpace c
    · cases b with
      | true =>
        exact ih true d (by simpa [subWsAux, h] using hd) hp
      | false =>
        rw [subWsAux] at hd
        simp only [h, if_true, if_pos] at hd
        rcases List.mem_cons.mp hd with heq | htl
        · exact heq
        · exact ih true d htl hp
    · rw [subWsAux] at hd
      simp only [h, if_neg, if_false, Bool.false_eq_true, not_false_eq_true] at hd
      rcases List.mem_cons.mp hd with heq | htl
      · subst heq; simp [hp] at h
      · exact ih false d htl hp

/-- The collapsed output has no two adjacent whitespace characters. -/
theorem subWsAux_chain (l : List Char) : ∀ b : Bool, noTwoWs (subWsAux b l) := by
  induction l with
  | nil => intro b; simp [subWsAux, noTwoWs]
  | cons c cs ih =>
    intro b
    by_cases h : isPySpace c
    · cases b with
      | true => simpa [subWsAux, h] using ih true
      | false =>
        rw [subWsAux]
        simp only [h, if_true, if_pos]
        refine List.chain'_cons'.mpr ⟨?_, ih true⟩
        intro d hd
        have := subWsAux_true_head cs d hd
        simp [this]
    · rw [subWsAux]
      simp only [h, if_neg, Bool.false_eq_true, not_false_eq_true]
      refine List.chain'_cons'.mpr ⟨?_, ih false⟩
      intro d _
      simp [h]

/-- On a list whose whitespace is already single spaces with no adjacent
runs, the collapsing scanner is the identity (in out-of-run state always, and
in in-run state provided the head is not whitespace). -/
theorem subWsAux_fix (u : List Char)
    (hm : ∀ c ∈ u, isPySpace c = true → c = ' ')
    (hc : noTwoWs u) :
    subWsAux false u = u ∧
      ((∀ c ∈ u.head?, isPySpace c = false) → subWsAux true u = u) := by
  induction u with
  | nil => exact ⟨rfl, fun _ => rfl⟩
  | cons c cs ih =>
    have hm' : ∀ d ∈ cs, isPySpace d = true → d = ' ' :=
      fun d hd => hm d (List.mem_cons_of_mem _ hd)
    have hcc := List.chain'_cons'.mp hc
    have ihcs := ih hm' hcc.2
    by_cases h : isPySpace c
    · have hceq : c = ' ' := hm c (List.mem_cons_self c cs) h
      constructor
      · have hhd : ∀ d ∈ cs.head?, isPySpace d = false := by
          intro d hd
          have hr := hcc.1 d hd
          by_cases hx : isPySpace d
          · exact absurd ⟨h, hx⟩ hr
          · simpa using hx
        subst hceq
        rw [subWsAux]
        simp only [isPySpace] at h ⊢
        simp only [h, if_true, Bool.false_eq_true, if_false]
        rw [ihcs.2 hhd]
      · intro hhead
        have := hhead c rfl
        simp [h] at this
    · constructor
      · rw [subWsAux]
        simp [h, ihcs.1]
      · intro _
        rw [subWsAux]
        simp [h, ihcs.1]

/-- Whitespace normalization produces only single, non-adjacent spaces. -/
theorem wsNormalize_props (s : List Char) :
    (∀ c ∈ wsNormalize s, isPySpace c = true → c = ' ') ∧ noTwoWs (wsNormalize s) := by
  unfold wsNormalize pyStrip subWs
  constructor
  · intro c hc hp
    have h1 : c ∈ (subWsAux false s).dropWhile isPySpace :=
      (rdropWhile_pref isPySpace _).sublist.subset hc
    have h2 : c ∈ subWsAux false s :=
      (List.dropWhile_suffix isPySpace).sublist.subset h1
    exact subWsAux_mem s false c h2 hp
  · have hch := subWsAux_chain s false
    have h1 : noTwoWs ((subWsAux false s).dropWhile isPySpace) :=
      hch.suffix (List.dropWhile_suffix isPySpace)
    exact List.Chain'.prefix h1 (rdropWhile_pref isPySpace _)

/-- Whitespace normalization is a fixed point of the collapsing scanner. -/
theorem subWs_wsNormalize (s : List Char) : subWs (wsNormalize s) = wsNormalize s := by
  obtain ⟨hm, hc⟩ := wsNormalize_props s
  exact (subWsAux_fix (wsNormalize s) hm hc).1

/-- Whitespace normalization output is already stripped. -/
theorem pyStrip_wsNormalize (s : List Char) :
    pyStrip (wsNormalize s) = wsNormalize s := by
  unfold wsNormalize
  exact pyStrip_idem (subWs s)

/-- Whitespace normalization is idempotent. -/
theorem wsNormalize_idem (s : List Char) :
    wsNormalize (wsNormalize s) = wsNormalize s := by
  have h1 : wsNormalize (wsNormalize s) = pyStrip (subWs (wsNormalize s)) := rfl
  rw [h1, subWs_wsNormalize, pyStrip_wsNormalize]

/-- The collapsing scanner never lengthens its input. -/
theorem subWsAux_length (l : List Char) : ∀ b, (subWsAux b l).length ≤ l.length := by
  induction l with
  | nil => intro b; simp [subWsAux]
  | cons c cs ih =>
    intro b
    by_cases h : isPySpace c
    · cases b with
      | true =>
        rw [subWsAux]
        simp only [h, if_true, if_pos]
        exact le_trans (ih true) (Nat.le_succ _)
      | false =>
        rw [subWsAux]
        simp only [h, if_true, if_pos, List.length_cons]
        exact Nat.succ_le_succ (ih true)
    · rw [subWsAux]
      simp only [h, if_neg, Bool.false_eq_true, not_false_eq_true, List.length_cons]
      exact Nat.succ_le_succ (ih false)

/-- Stripping never lengthens. -/
theorem pyStrip_length (l : List Char) : (pyStrip l).length ≤ l.length :=
  le_trans (rdropWhile_pref isPySpace (l.dropWhile isPySpace)).length_le
    (List.dropWhile_suffix isPySpace).length_le

/-- Whitespace normalization never lengthens. -/
theorem wsNormalize_length (s : List Char) : (wsNormalize s).length ≤ s.length :=
  le_trans (pyStrip_length (subWs s)) (subWsAux_length s false)

/-- A successful bracket group consumes at least the two bracket
characters. -/
theorem bracketGroup_shrink (t r : List Char) (h : bracketGroup t = some r) :
    r.length < t.length := by
  unfold bracketGroup at h
  split at h
  · rename_i rest
    split at h
    · rename_i b heq
      have hr : r = b.dropWhile isPySpace := by
        injection h with h'
        exact h'.symm
      have hsuf : (rest.dropWhile (fun c => c ≠ ']')).length ≤ rest.length :=
        (List.dropWhile_suffix _).length_le
      rw [heq] at hsuf
      have hrb : r.length ≤ b.length := by
        rw [hr]
        exact (List.dropWhile_suffix isPySpace).length_le
      simp only [List.length_cons] at hsuf ⊢
      omega
    · exact absurd h (by simp)
  · exact absurd h (by simp)

/-- A successful pipe group consumes at least the segment and its pipe. -/
theorem pipeGroup_shrink (t r : List Char) (h : pipeGroup t = some r) :
    r.length < t.length := by
  simp only [pipeGroup] at h
  split at h
  · rename_i r0 heq
    split at h
    · have hr : r = r0.dropWhile isPySpace := by
        injection h with h'
        exact h'.symm
      have hrb : r.length ≤ r0.length := by
        rw [hr]
        exact (List.dropWhile_suffix isPySpace).length_le
      have hdl := congrArg List.length heq
      rw [List.length_drop] at hdl
      simp only [List.length_cons] at hdl
      omega
    · exact absurd h (by simp)
  · exact absurd h (by simp)

/-- The group loop never lengthens when each group strictly shrinks. -/
theorem groupsLoop_length (g : List Char → Option (List Char))
    (hg : ∀ t r, g t = some r → r.length < t.length) :
    ∀ f t, (groupsLoop g f t).length ≤ t.length := by
  intro f
  induction f with
  | zero => intro t; simp [groupsLoop]
  | succ f ih =>
    intro t
    rw [groupsLoop]
    cases hgt : g t with
    | none => exact le_rfl
    | some r => exact le_trans (ih r) (le_of_lt (hg t r hgt))

/-- An anchored group substitution either leaves the string unchanged or
strictly shortens it. -/
theorem stripGroups_cases (g : List Char → Option (List Char))
    (hg : ∀ t r, g t = some r → r.length < t.length) (s : List Char) :
    stripGroups g s = s ∨ (stripGroups g s).length < s.length := by
  cases hgt : g (s.dropWhile isPySpace) with
  | none =>
    left
    simp only [stripGroups, hgt]
  | some r =>
    right
    simp only [stripGroups, hgt]
    calc (groupsLoop g (s.dropWhile isPySpace).length r).length
        ≤ r.length := groupsLoop_length g hg _ r
      _ < (s.dropWhile isPySpace).length := hg _ r hgt
      _ ≤ s.length := (List.dropWhile_suffix isPySpace).length_le

/-- Bracket stripping either fixes or strictly shortens. -/
theorem stripBrackets_cases (s : List Char) :
    stripBrackets s = s ∨ (stripBrackets s).length < s.length :=
  stripGroups_cases bracketGroup bracketGroup_shrink s

/-- Pipe stripping either fixes or strictly shortens. -/
theorem stripPipes_cases (s : List Char) :
    stripPipes s = s ∨ (stripPipes s).length < s.length :=
  stripGroups_cases pipeGroup pipeGroup_shrink s

/-- Bracket stripping never lengthens. -/
theorem stripBrackets_length (s : List Char) :
    (stripBrackets s).length ≤ s.length := by
  rcases stripBrackets_cases s with he | hlt
  · rw [he]
  · exact le_of_lt hlt

/-- Pipe stripping never lengthens. -/
theorem stripPipes_length (s : List Char) :
    (stripPipes s).length ≤ s.length := by
  rcases stripPipes_cases s with he | hlt
  · rw [he]
  · exact le_of_lt hlt

/-- A successful promotional-keyword alternation consumes at least one
character. -/
theorem promoMatch_pos (t : List Char) (n : Nat) (h : promoMatch t = some n) :
    1 ≤ n := by
  unfold promoMatch at h
  split_ifs at h
  all_goals first
  | · injection h with h'
      rw [← h']
      decide
  | · simp only [pickSuffixLen] at h
      split at h
      · rename_i i _
        injection h with h'
        omega
      · exact absurd h (by simp)

/-- Promotional-keyword stripping either fixes or strictly shortens. -/
theorem stripPromo_cases (s : List Char) :
    stripPromo s = s ∨ (stripPromo s).length < s.length := by
  cases hpm : promoMatch (s.dropWhile isPySpace) with
  | none =>
    left
    simp only [stripPromo, hpm]
  | some n =>
    right
    have ht_ne : s.dropWhile isPySpace ≠ [] := by
      intro he
      rw [he] at hpm
      have h0 : promoMatch ([] : List Char) = none := by decide
      rw [h0] at hpm
      exact Option.noConfusion hpm
    have hn1 : 1 ≤ n := promoMatch_pos _ n hpm
    have htlen : 1 ≤ (s.dropWhile isPySpace).length := by
      cases hte : s.dropWhile isPySpace with
      | nil => exact absurd hte ht_ne
      | cons a b => simp
    have hts : (s.dropWhile isPySpace).length ≤ s.length :=
      (List.dropWhile_suffix isPySpace).length_le
    have hr1 : (((s.dropWhile isPySpace).drop n).dropWhile isPySpace).length
        ≤ (s.dropWhile isPySpace).length - n := by
      calc (((s.dropWhile isPySpace).drop n).dropWhile isPySpace).length
          ≤ ((s.dropWhile isPySpace).drop n).length :=
            (List.dropWhile_suffix isPySpace).length_le
        _ = (s.dropWhile isPySpace).length - n := List.length_drop _ _
    simp only [stripPromo, hpm]
    rcases hr1e : ((s.dropWhile isPySpace).drop n).dropWhile isPySpace with _ | ⟨c, cs⟩
    · simp only [List.dropWhile]
      simp only [List.length_nil]
      omega
    · rw [hr1e] at hr1
      simp only [List.length_cons] at hr1
      by_cases hsep : c = ':' ∨ c = '-' ∨ c = '–' ∨ c = '—'
      · simp only [hsep, if_pos]
        have hfin : (cs.dropWhile isPySpace).length ≤ cs.length :=
          (List.dropWhile_suffix isPySpace).length_le
        omega
      · simp only [hsep, if_neg, not_false_eq_true]
        have hfin : ((c :: cs).dropWhile isPySpace).length ≤ (c :: cs).length :=
          (List.dropWhile_suffix isPySpace).length_le
        simp only [List.length_cons] at hfin
        omega

/-- Promotional-keyword stripping never lengthens. -/
theorem stripPromo_length (s : List Char) :
    (stripPromo s).length ≤ s.length := by
  rcases stripPromo_cases s with he | hlt
  · rw [he]
  · exact le_of_lt hlt

/-- A non-empty stripped string on which some prefix-stripping stage still
fires is strictly shortened by the cleaner. -/
theorem cleanTitleL_shrink (d : Char) (ds : List Char)
    (hstrip : pyStrip (d :: ds) = d :: ds)
    (hne : ¬ (stripBrackets (d :: ds) = d :: ds ∧ stripPipes (d :: ds) = d :: ds ∧
      stripPromo (d :: ds) = d :: ds)) :
    (cleanTitleL (d :: ds)).length < (d :: ds).length := by
  have hexp : cleanTitleL (d :: ds)
      = wsNormalize (stripPromo (stripPipes (stripBrackets (pyStrip (d :: ds))))) := rfl
  rw [hexp, hstrip]
  by_cases hb : stripBrackets (d :: ds) = d :: ds
  · rw [hb]
    by_cases hp : stripPipes (d :: ds) = d :: ds
    · rw [hp]
      have hpr : stripPromo (d :: ds) ≠ d :: ds := fun he => hne ⟨hb, hp, he⟩
      rcases stripPromo_cases (d :: ds) with he | hlt
      · exact absurd he hpr
      · exact lt_of_le_of_lt (wsNormalize_length _) hlt
    · rcases stripPipes_cases (d :: ds) with he | hlt
      · exact absurd he hp
      · calc (wsNormalize (stripPromo (stripPipes (d :: ds)))).length
            ≤ (stripPromo (stripPipes (d :: ds))).length := wsNormalize_length _
          _ ≤ (stripPipes (d :: ds)).length := stripPromo_length _
          _ < (d :: ds).length := hlt
  · rcases stripBrackets_cases (d :: ds) with he | hlt
    · exact absurd he hb
    · calc (wsNormalize (stripPromo (stripPipes (stripBrackets (d :: ds))))).length
          ≤ (stripPromo (stripPipes (stripBrackets (d :: ds)))).length :=
            wsNormalize_length _
        _ ≤ (stripPipes (stripBrackets (d :: ds))).length := stripPromo_length _
        _ ≤ (stripBrackets (d :: ds)).length := stripPipes_length _
        _ < (d :: ds).length := hlt

/-- Conversely, a cleaned title that re-cleans to itself is a fixed point of
each prefix-stripping stage: a stage that still fired would strictly shorten
the result. -/
theorem cleanTitleL_fix_necessary (l : List Char)
    (h : cleanTitleL (cleanTitleL l) = cleanTitleL l) :
    stripBrackets (cleanTitleL l) = cleanTitleL l ∧
    stripPipes (cleanTitleL l) = cleanTitleL l ∧
    stripPromo (cleanTitleL l) = cleanTitleL l := by
  cases hyy : cleanTitleL l with
  | nil => exact ⟨rfl, rfl, rfl⟩
  | cons d ds =>
    have hl_ne : l ≠ [] := by
      intro he
      rw [he] at hyy
      have h0 : cleanTitleL ([] : List Char) = [] := rfl
      rw [h0] at hyy
      exact List.noConfusion hyy
    have hstrip : pyStrip (cleanTitleL l) = cleanTitleL l := by
      cases l with
      | nil => exact absurd rfl hl_ne
      | cons c cs =>
        exact pyStrip_wsNormalize
          (stripPromo (stripPipes (stripBrackets (pyStrip (c :: cs)))))
    rw [hyy] at hstrip h
    by_contra hcon
    have hlt := cleanTitleL_shrink d ds hstrip hcon
    rw [h] at hlt
    exact lt_irrefl _ hlt

/-- A cleaned title whose prefix-stripping stages are exhausted is a fixed
point of the whole cleaner. -/
theorem cleanTitleL_fix (l : List Char)
    (h1 : stripBrackets (cleanTitleL l) = cleanTitleL l)
    (h2 : stripPipes (cleanTitleL l) = cleanTitleL l)
    (h3 : stripPromo (cleanTitleL l) = cleanTitleL l) :
    cleanTitleL (cleanTitleL l) = cleanTitleL l := by
  cases l with
  | nil => rfl
  | cons c cs =>
    have hy : cleanTitleL (c :: cs)
        = wsNormalize (stripPromo (stripPipes (stripBrackets (pyStrip (c :: cs))))) := rfl
    cases hyy : cleanTitleL (c :: cs) with
    | nil => rfl
    | cons d ds =>
      rw [hyy] at h1 h2 h3
      have hexp : cleanTitleL (d :: ds)
          = wsNormalize (stripPromo (stripPipes (stripBrackets (pyStrip (d :: ds))))) := rfl
      have hops : pyStrip (d :: ds) = d :: ds := by
        have hp := pyStrip_wsNormalize
          (stripPromo (stripPipes (stripBrackets (pyStrip (c :: cs)))))
        rw [← hy, hyy] at hp
        exact hp
      rw [hexp, hops, h1, h2, h3]
      have hw := wsNormalize_idem
        (stripPromo (stripPipes (stripBrackets (pyStrip (c :: cs)))))
      rw [← hy, hyy] at hw
      exact hw

/-- C7 counterexample: clean_title is not idempotent — stripping the pipe
segment of this input exposes a bracketed group that only a second
application removes. -/
theorem claim_C7_counterexample :
    clean_title (clean_title "x| [A] B") ≠ clean_title "x| [A] B" := by
  decide

/-- C7 (amended): clean_title is idempotent exactly on the inputs whose
cleaned form is not reducible any further by the three prefix-stripping
stages: re-cleaning a cleaned title changes nothing if and only if the
cleaned title is a fixed point of the bracket, pipe and promotional-keyword
stages (the whitespace normalization and strip stages are always
idempotent, and a stage that still fires strictly shortens the result). -/
theorem claim_C7_amended (x : String) :
    clean_title (clean_title x) = clean_title x ↔
      (stripBrackets (clean_title x).toList = (clean_title x).toList ∧
       stripPipes (clean_title x).toList = (clean_title x).toList ∧
       stripPromo (clean_title x).toList = (clean_title x).toList) := by
  have htl : (clean_title x).toList = cleanTitleL x.toList := rfl
  rw [htl]
  constructor
  · intro h
    have hl : cleanTitleL (cleanTitleL x.toList) = cleanTitleL x.toList :=
      congrArg String.toList h
    exact cleanTitleL_fix_necessary x.toList hl
  · rintro ⟨h1, h2, h3⟩
    show (cleanTitleL ((cleanTitleL x.toList).asString).toList).asString
        = (cleanTitleL x.toList).asString
    have hAs : ((cleanTitleL x.toList).asString).toList = cleanTitleL x.toList := rfl
    rw [hAs, cleanTitleL_fix x.toList h1 h2 h3]

/-- Witness for claim_C7_amended on a typical already-clean product title. -/
theorem claim_C7_witness :
    clean_title (clean_title "Vitamin C Serum 30ml") = clean_title "Vitamin C Serum 30ml" :=
  (claim_C7_amended "Vitamin C Serum 30ml").mpr ⟨by decide, by decide, by decide⟩

/-! Semantics of the binary64 model: the Nat-level functions realize correctly
rounded binary arithmetic on exact fractions. -/

/-- The fuel-driven logarithm brackets its argument between consecutive powers
of two whenever the fuel is sufficient. -/
theorem natLog2F_spec : ∀ f n : Nat, 1 ≤ n → n ≤ f →
    2 ^ natLog2F f n ≤ n ∧ n < 2 ^ (natLog2F f n + 1) := by
  intro f
  induction f with
  | zero => intro n h1 h2; omega
  | succ f ih =>
    intro n h1 h2
    by_cases h : 2 ≤ n
    · have hn2 : 1 ≤ n / 2 := by omega
      have hf : n / 2 ≤ f := by omega
      obtain ⟨hl, hr⟩ := ih (n / 2) hn2 hf
      rw [natLog2F]
      simp only [h, if_pos]
      rw [pow_succ, pow_succ] at *
      omega
    · have hn1 : n = 1 := by omega
      subst hn1
      rw [natLog2F]
      norm_num

/-- Correctness of natLog2. -/
theorem natLog2_spec (n : Nat) (h : 1 ≤ n) :
    2 ^ natLog2 n ≤ n ∧ n < 2 ^ (natLog2 n + 1) :=
  natLog2F_spec n n h le_rfl

/-- Power comparison helper: a cross-multiplied inequality between naturals
realizes the rational comparison with an integer power of two given by the
difference of the Nat exponents. -/
theorem qle_of_cross (x y a b : Nat) (hb : 0 < b)
    (h : 2 ^ x * b ≤ a * 2 ^ y) :
    (2:ℚ) ^ ((x:ℤ) - (y:ℤ)) ≤ (a:ℚ) / b := by
  have hb' : (0:ℚ) < b := by exact_mod_cast hb
  have hy : (0:ℚ) < (2:ℚ) ^ (y:ℕ) := by positivity
  rw [zpow_sub₀ (by norm_num : (2:ℚ) ≠ 0), zpow_natCast, zpow_natCast,
    div_le_div_iff hy hb']
  exact_mod_cast h

/-- Strict counterpart of qle_of_cross. -/
theorem qlt_of_cross (x y a b : Nat) (hb : 0 < b)
    (h : a * 2 ^ y < 2 ^ x * b) :
    (a:ℚ) / b < (2:ℚ) ^ ((x:ℤ) - (y:ℤ)) := by
  have hb' : (0:ℚ) < b := by exact_mod_cast hb
  have hy : (0:ℚ) < (2:ℚ) ^ (y:ℕ) := by positivity
  rw [zpow_sub₀ (by norm_num : (2:ℚ) ≠ 0), zpow_natCast, zpow_natCast,
    div_lt_div_iff hb' hy]
  exact_mod_cast h

/-- The cross-multiplication test pow2LE decides the rational comparison. -/
theorem pow2LE_iff (d : Int) (a b : Nat) (hb : 0 < b) :
    pow2LE d a b = true ↔ (2:ℚ) ^ d ≤ (a:ℚ) / b := by
  have hb' : (0:ℚ) < b := by exact_mod_cast hb
  cases d with
  | ofNat k =>
    rw [pow2LE, decide_eq_true_eq, Int.ofNat_eq_natCast, zpow_natCast,
      le_div_iff hb', mul_comm]
    constructor
    · intro h; exact_mod_cast h
    · intro h; exact_mod_cast h
  | negSucc k =>
    rw [pow2LE, decide_eq_true_eq, zpow_negSucc, inv_eq_one_div,
      div_le_div_iff (by positivity) hb', one_mul]
    constructor
    · intro h; exact_mod_cast h
    · intro h; exact_mod_cast h

/-- Correctness of the binade exponent: it brackets the fraction between
consecutive integer powers of two. -/
theorem fexpN_correct (a b : Nat) (ha : 0 < a) (hb : 0 < b) :
    (2:ℚ) ^ fexpN a b ≤ (a:ℚ) / b ∧ (a:ℚ) / b < 2 ^ (fexpN a b + 1) := by
  obtain ⟨hal, har⟩ := natLog2_spec a ha
  obtain ⟨hbl, hbr⟩ := natLog2_spec b hb
  unfold fexpN
  by_cases h : pow2LE ((natLog2 a : ℤ) - (natLog2 b : ℤ)) a b
  · rw [if_pos h]
    refine ⟨(pow2LE_iff _ a b hb).mp h, ?_⟩
    have hcross : a * 2 ^ (natLog2 b) < 2 ^ (natLog2 a + 1) * b := by
      calc a * 2 ^ (natLog2 b)
          < 2 ^ (natLog2 a + 1) * 2 ^ (natLog2 b) :=
            mul_lt_mul_of_pos_right har (by positivity)
        _ ≤ 2 ^ (natLog2 a + 1) * b := mul_le_mul_left' hbl _
    have hq := qlt_of_cross (natLog2 a + 1) (natLog2 b) a b hb hcross
    have heq : ((natLog2 a + 1 : ℕ) : ℤ) - ((natLog2 b : ℕ) : ℤ)
        = ((natLog2 a : ℤ) - (natLog2 b : ℤ)) + 1 := by push_cast; ring
    rwa [heq] at hq
  · rw [if_neg h]
    constructor
    · have hcross : 2 ^ (natLog2 a) * b ≤ a * 2 ^ (natLog2 b + 1) := by
        calc 2 ^ (natLog2 a) * b
            ≤ 2 ^ (natLog2 a) * 2 ^ (natLog2 b + 1) := mul_le_mul_left' (le_of_lt hbr) _
          _ ≤ a * 2 ^ (natLog2 b + 1) := mul_le_mul_right' hal _
      have hq := qle_of_cross (natLog2 a) (natLog2 b + 1) a b hb hcross
      have heq : ((natLog2 a : ℕ) : ℤ) - ((natLog2 b + 1 : ℕ) : ℤ)
          = ((natLog2 a : ℤ) - (natLog2 b : ℤ)) - 1 := by push_cast; ring
      rwa [heq] at hq
    · have hlt : ¬ ((2:ℚ) ^ ((natLog2 a : ℤ) - (natLog2 b : ℤ)) ≤ (a:ℚ) / b) := by
        intro hc
        exact h ((pow2LE_iff _ a b hb).mpr hc)
      push_neg at hlt
      have heq : ((natLog2 a : ℤ) - (natLog2 b : ℤ)) - 1 + 1
          = (natLog2 a : ℤ) - (natLog2 b : ℤ) := by ring
      rwa [heq]

/-- Round-to-nearest never strays more than one half from the exact
quotient. -/
theorem rneDiv_bounds (A B : Nat) (hb : 0 < B) :
    (A:ℚ)/B - 1/2 ≤ (rneDiv A B : ℚ) ∧ (rneDiv A B : ℚ) ≤ (A:ℚ)/B + 1/2 := by
  have hb' : (0:ℚ) < B := by exact_mod_cast hb
  have hmod := Nat.div_add_mod A B
  have hrlt : A % B < B := Nat.mod_lt _ hb
  have hA : (A:ℚ) = B * (A / B : ℕ) + (A % B : ℕ) := by exact_mod_cast hmod.symm
  have hq : (A:ℚ)/B = (A / B : ℕ) + ((A % B : ℕ) : ℚ) / B := by
    rw [hA]
    field_simp
    ring
  by_cases h1 : 2 * (A % B) < B
  · have hhalf : ((A % B : ℕ) : ℚ) / B < 1/2 := by
      rw [div_lt_div_iff hb' (by norm_num : (0:ℚ) < 2)]
      calc ((A % B : ℕ) : ℚ) * 2 = ((2 * (A % B) : ℕ) : ℚ) := by push_cast; ring
        _ < ((B : ℕ) : ℚ) := by exact_mod_cast h1
        _ = 1 * B := by ring
    have hr0 : (0:ℚ) ≤ ((A % B : ℕ) : ℚ) / B := by positivity
    simp only [rneDiv, if_pos h1]
    rw [hq]
    constructor <;> linarith
  · by_cases h2 : B < 2 * (A % B)
    · have hhalf : 1/2 < ((A % B : ℕ) : ℚ) / B := by
        rw [div_lt_div_iff (by norm_num : (0:ℚ) < 2) hb']
        calc (1:ℚ) * B = ((B : ℕ) : ℚ) := by ring
          _ < ((2 * (A % B) : ℕ) : ℚ) := by exact_mod_cast h2
          _ = ((A % B : ℕ) : ℚ) * 2 := by push_cast; ring
      have hr1 : ((A % B : ℕ) : ℚ) / B < 1 := by
        rw [div_lt_one hb']
        exact_mod_cast hrlt
      simp only [rneDiv, if_neg h1, if_pos h2]
      rw [hq]
      push_cast
      constructor <;> linarith
    · have htie : ((A % B : ℕ) : ℚ) / B = 1/2 := by
        have hBeq : (2 * (A % B)) = B := by omega
        rw [div_eq_div_iff (ne_of_gt hb') (by norm_num : (2:ℚ) ≠ 0)]
        calc ((A % B : ℕ) : ℚ) * 2 = ((2 * (A % B) : ℕ) : ℚ) := by push_cast; ring
          _ = ((B : ℕ) : ℚ) := by exact_mod_cast congrArg (fun n : ℕ => (n : ℚ)) hBeq
          _ = 1 * B := by ring
      by_cases h3 : (A / B) % 2 = 0
      · simp only [rneDiv, if_neg h1, if_neg h2, if_pos h3]
        rw [hq, htie]
        constructor <;> linarith
      · simp only [rneDiv, if_neg h1, if_neg h2, if_neg h3]
        rw [hq, htie]
        push_cast
        constructor <;> linarith

/-- Scaling a half-bounded error by a power of two. -/
theorem abs_scale (m c : ℚ) (t : ℤ) (h : |m - c| ≤ 1/2) :
    |m * (2:ℚ) ^ t - c * 2 ^ t| ≤ 2 ^ (t - 1) := by
  have hp : (0:ℚ) < (2:ℚ) ^ t := by positivity
  rw [← sub_mul, abs_mul, abs_of_pos hp]
  calc |m - c| * 2 ^ t ≤ 1/2 * 2 ^ t := mul_le_mul_of_nonneg_right h (le_of_lt hp)
    _ = 2 ^ (t - 1) := by
        rw [zpow_sub₀ (by norm_num : (2:ℚ) ≠ 0)]
        ring

/-- Rational value of a mantissa-exponent pair. -/
def mval (m : Nat) (e : Int) : ℚ :=
  (m : ℚ) * (2:ℚ) ^ (e - 52)

/-- The binary64 rounding step: its exponent is the binade exponent, its
value is within half an ulp (2 ^ (e - 53)) of the exact fraction, and its
mantissa does not exceed 2 ^ 53. -/
theorem roundMantissa_err (a b : Nat) (ha : 0 < a) (hb : 0 < b) :
    (roundMantissa a b).2 = fexpN a b ∧
    |mval (roundMantissa a b).1 (fexpN a b) - (a:ℚ)/b|
      ≤ (2:ℚ) ^ (fexpN a b - 53) ∧
    (roundMantissa a b).1 ≤ 2 ^ 53 := by
  obtain ⟨hel, her⟩ := fexpN_correct a b ha hb
  have hb' : (0:ℚ) < b := by exact_mod_cast hb
  have h2n : (2:ℚ) ≠ 0 := by norm_num
  rcases h52 : 52 - fexpN a b with k | k
  · have hm : roundMantissa a b = (rneDiv (a * 2 ^ k) b, fexpN a b) := by
      simp only [roundMantissa]
      rw [h52]
    rw [hm]
    refine ⟨rfl, ?_, ?_⟩
    all_goals {
      have hkz : ((52:ℤ) - fexpN a b) = (k:ℤ) := by
        rw [h52, Int.ofNat_eq_natCast]
      obtain ⟨hlo, hhi⟩ := rneDiv_bounds (a * 2 ^ k) b hb
      have habs : |(rneDiv (a * 2 ^ k) b : ℚ) - ((a * 2 ^ k : ℕ) : ℚ)/b| ≤ 1/2 :=
        abs_le.mpr ⟨by linarith, by linarith⟩
      have hc : ((a * 2 ^ k : ℕ) : ℚ)/b
          = ((a:ℚ)/b) * (2:ℚ) ^ ((52:ℤ) - fexpN a b) := by
        rw [hkz, zpow_natCast]
        push_cast
        ring
      have hcc : (((a * 2 ^ k : ℕ) : ℚ)/b) * (2:ℚ) ^ (fexpN a b - 52) = (a:ℚ)/b := by
        rw [hc, mul_assoc, ← zpow_add₀ h2n]
        norm_num
      have hclt : ((a * 2 ^ k : ℕ) : ℚ)/b < (2:ℚ) ^ (53:ℤ) := by
        rw [hc]
        calc ((a:ℚ)/b) * (2:ℚ) ^ ((52:ℤ) - fexpN a b)
            < (2:ℚ) ^ (fexpN a b + 1) * (2:ℚ) ^ ((52:ℤ) - fexpN a b) :=
              mul_lt_mul_of_pos_right her (by positivity)
          _ = (2:ℚ) ^ (53:ℤ) := by
              rw [← zpow_add₀ h2n]
              congr 1
              ring
      first
      | · have hscale := abs_scale (rneDiv (a * 2 ^ k) b : ℚ)
            (((a * 2 ^ k : ℕ) : ℚ)/b) (fexpN a b - 52) habs
          rw [hcc] at hscale
          have he53 : fexpN a b - 52 - 1 = fexpN a b - 53 := by ring
          rw [he53] at hscale
          simpa [mval] using hscale
      | · have hmlt : (rneDiv (a * 2 ^ k) b : ℚ) < (2:ℚ) ^ (53:ℤ) + 1/2 := by
            linarith
          have h253 : ((2:ℚ)) ^ (53:ℤ) = ((2 ^ 53 : ℕ) : ℚ) := by
            rw [show ((53:ℤ)) = ((53:ℕ) : ℤ) from rfl, zpow_natCast]
            push_cast
            ring
          rw [h253] at hmlt
          have : (rneDiv (a * 2 ^ k) b : ℚ) < ((2 ^ 53 + 1 : ℕ) : ℚ) := by
            push_cast
            linarith
          have hn : rneDiv (a * 2 ^ k) b < 2 ^ 53 + 1 := by exact_mod_cast this
          omega
    }
  · have hm : roundMantissa a b = (rneDiv a (b * 2 ^ (k + 1)), fexpN a b) := by
      simp only [roundMantissa]
      rw [h52]
    rw [hm]
    refine ⟨rfl, ?_, ?_⟩
    all_goals {
      have hbk : 0 < b * 2 ^ (k + 1) := by positivity
      have hbk' : (0:ℚ) < ((b * 2 ^ (k + 1) : ℕ) : ℚ) := by exact_mod_cast hbk
      have hkz : ((52:ℤ) - fexpN a b) = -(((k + 1 : ℕ)) : ℤ) := by
        have : 52 - fexpN a b = Int.negSucc k := h52
        rw [this, Int.negSucc_eq]
        push_cast
        ring
      obtain ⟨hlo, hhi⟩ := rneDiv_bounds a (b * 2 ^ (k + 1)) hbk
      have habs : |(rneDiv a (b * 2 ^ (k + 1)) : ℚ)
          - (a : ℚ)/((b * 2 ^ (k + 1) : ℕ) : ℚ)| ≤ 1/2 :=
        abs_le.mpr ⟨by linarith, by linarith⟩
      have hc : (a : ℚ)/((b * 2 ^ (k + 1) : ℕ) : ℚ)
          = ((a:ℚ)/b) * (2:ℚ) ^ ((52:ℤ) - fexpN a b) := by
        rw [hkz, zpow_neg, zpow_natCast]
        push_cast
        field_simp
      have hcc : ((a : ℚ)/((b * 2 ^ (k + 1) : ℕ) : ℚ)) * (2:ℚ) ^ (fexpN a b - 52)
          = (a:ℚ)/b := by
        rw [hc, mul_assoc, ← zpow_add₀ h2n]
        norm_num
      have hclt : (a : ℚ)/((b * 2 ^ (k + 1) : ℕ) : ℚ) < (2:ℚ) ^ (53:ℤ) := by
        rw [hc]
        calc ((a:ℚ)/b) * (2:ℚ) ^ ((52:ℤ) - fexpN a b)
            < (2:ℚ) ^ (fexpN a b + 1) * (2:ℚ) ^ ((52:ℤ) - fexpN a b) :=
              mul_lt_mul_of_pos_right her (by positivity)
          _ = (2:ℚ) ^ (53:ℤ) := by
              rw [← zpow_add₀ h2n]
              congr 1
              ring
      first
      | · have hscale := abs_scale (rneDiv a (b * 2 ^ (k + 1)) : ℚ)
            ((a : ℚ)/((b * 2 ^ (k + 1) : ℕ) : ℚ)) (fexpN a b - 52) habs
          rw [hcc] at hscale
          have he53 : fexpN a b - 52 - 1 = fexpN a b - 53 := by ring
          rw [he53] at hscale
          simpa [mval] using hscale
      | · have hmlt : (rneDiv a (b * 2 ^ (k + 1)) : ℚ) < (2:ℚ) ^ (53:ℤ) + 1/2 := by
            linarith
          have h253 : ((2:ℚ)) ^ (53:ℤ) = ((2 ^ 53 : ℕ) : ℚ) := by
            rw [show ((53:ℤ)) = ((53:ℕ) : ℤ) from rfl, zpow_natCast]
            push_cast
            ring
          rw [h253] at hmlt
          have : (rneDiv a (b * 2 ^ (k + 1)) : ℚ) < ((2 ^ 53 + 1 : ℕ) : ℚ) := by
            push_cast
            linarith
          have hn : rneDiv a (b * 2 ^ (k + 1)) < 2 ^ 53 + 1 := by exact_mod_cast this
          omega
    }

/-- The fraction read back from a mantissa-exponent pair has a positive
denominator and denotes exactly the pair's value. -/
theorem mantissaFrac_val (m : Nat) (e : Int) :
    0 < (mantissaFrac m e).2 ∧
    ((mantissaFrac m e).1 : ℚ) / ((mantissaFrac m e).2 : ℚ) = mval m e := by
  rcases h : e - 52 with k | k
  · have hm : mantissaFrac m e = (m * 2 ^ k, 1) := by
      simp only [mantissaFrac]
      rw [h]
    rw [hm]
    refine ⟨one_pos, ?_⟩
    have hz : (e - 52 : ℤ) = (k : ℤ) := by rw [h, Int.ofNat_eq_natCast]
    rw [mval, hz, zpow_natCast]
    push_cast
    ring
  · have hm : mantissaFrac m e = (m, 2 ^ (k + 1)) := by
      simp only [mantissaFrac]
      rw [h]
    rw [hm]
    refine ⟨by positivity, ?_⟩
    have hz : (e - 52 : ℤ) = -(((k + 1 : ℕ)) : ℤ) := by
      rw [h, Int.negSucc_eq]
      push_cast
      ring
    rw [mval, hz, zpow_neg, zpow_natCast]
    have h2 : ((2 ^ (k + 1) : ℕ) : ℚ) = (2:ℚ) ^ (k + 1) := by push_cast; ring
    rw [h2, div_eq_mul_inv]

/-- Range of the binary64 discount value: for prices 0 < s < o the computed
percentage lies between 0 and 100. -/
theorem discFloat_range (o s : Nat) (hs : 0 < s) (hso : s < o) :
    0 ≤ discFloat o s ∧ discFloat o s ≤ 100 := by
  have ha : 0 < o - s := by omega
  have hb : 0 < o := by omega
  have hb' : (0:ℚ) < o := by exact_mod_cast hb
  have h2n : (2:ℚ) ≠ 0 := by norm_num
  simp only [discFloat]
  obtain ⟨hp2, herr1, hm1⟩ := roundMantissa_err (o - s) o ha hb
  set p := roundMantissa (o - s) o with hpdef
  obtain ⟨he1l, he1r⟩ := fexpN_correct (o - s) o ha hb
  have hq1lt : ((o - s : ℕ) : ℚ) / o < 1 := by
    rw [div_lt_one hb']
    exact_mod_cast (by omega : o - s < o)
  have hq1pos : (0:ℚ) < ((o - s : ℕ) : ℚ) / o := by
    apply div_pos _ hb'
    exact_mod_cast ha
  have he1neg : fexpN (o - s) o ≤ -1 := by
    by_contra hc
    push_neg at hc
    have h0 : (0:ℤ) ≤ fexpN (o - s) o := by omega
    have h1 : (2:ℚ) ^ (0:ℤ) ≤ (2:ℚ) ^ fexpN (o - s) o :=
      zpow_le_zpow_right₀ (by norm_num) h0
    rw [zpow_zero] at h1
    linarith
  have hxle : mval p.1 (fexpN (o - s) o) ≤ 1 := by
    rw [mval]
    calc (p.1 : ℚ) * 2 ^ (fexpN (o - s) o - 52)
        ≤ ((2 ^ 53 : ℕ) : ℚ) * 2 ^ (fexpN (o - s) o - 52) := by
          apply mul_le_mul_of_nonneg_right _ (le_of_lt (zpow_pos (by norm_num) _))
          exact_mod_cast hm1
      _ = (2:ℚ) ^ (53:ℤ) * 2 ^ (fexpN (o - s) o - 52) := by
          norm_num
      _ = (2:ℚ) ^ (fexpN (o - s) o + 1) := by
          rw [← zpow_add₀ h2n]
          congr 1
          ring
      _ ≤ (2:ℚ) ^ (0:ℤ) := zpow_le_zpow_right₀ (by norm_num) (by omega)
      _ = 1 := zpow_zero 2
  have hxpos : 0 < mval p.1 (fexpN (o - s) o) := by
    have hlow := (abs_le.mp herr1).1
    have hE : (2:ℚ) ^ (fexpN (o - s) o - 53) ≤ (2:ℚ) ^ (fexpN (o - s) o - 1) :=
      zpow_le_zpow_right₀ (by norm_num) (by omega)
    have hhalf : (2:ℚ) ^ (fexpN (o - s) o - 1)
        = (2:ℚ) ^ fexpN (o - s) o / 2 := by
      rw [zpow_sub₀ h2n]
      norm_num
    have hp0 : (0:ℚ) < (2:ℚ) ^ fexpN (o - s) o := zpow_pos (by norm_num) _
    nlinarith [he1l]
  obtain ⟨hf2, hfval⟩ := mantissaFrac_val p.1 p.2
  set f := mantissaFrac p.1 p.2 with hfdef
  rw [hp2] at hfval
  have hf2' : (0:ℚ) < (f.2 : ℚ) := by exact_mod_cast hf2
  have hf1pos : 0 < f.1 := by
    by_contra hc
    push_neg at hc
    have hz : f.1 = 0 := by omega
    rw [hz] at hfval
    simp at hfval
    rw [← hfval] at hxpos
    simp at hxpos
  have hA2 : 0 < f.1 * 100 := by omega
  obtain ⟨hq2, herr2, hm2⟩ := roundMantissa_err (f.1 * 100) f.2 hA2 hf2
  set q := roundMantissa (f.1 * 100) f.2 with hqdef
  obtain ⟨he2l, he2r⟩ := fexpN_correct (f.1 * 100) f.2 hA2 hf2
  have hq2v : ((f.1 * 100 : ℕ) : ℚ) / (f.2 : ℚ) = 100 * (((f.1 : ℕ) : ℚ) / f.2) := by
    push_cast
    ring
  have hq2le : ((f.1 * 100 : ℕ) : ℚ) / (f.2 : ℚ) ≤ 100 := by
    rw [hq2v, hfval]
    nlinarith
  have he2le : fexpN (f.1 * 100) f.2 ≤ 6 := by
    by_contra hc
    push_neg at hc
    have h7 : (7:ℤ) ≤ fexpN (f.1 * 100) f.2 := by omega
    have h1 : (2:ℚ) ^ (7:ℤ) ≤ (2:ℚ) ^ fexpN (f.1 * 100) f.2 :=
      zpow_le_zpow_right₀ (by norm_num) h7
    have h128 : (2:ℚ) ^ (7:ℤ) = 128 := by norm_num
    linarith
  have hyle : mval q.1 (fexpN (f.1 * 100) f.2) ≤ 100 + 1/2 := by
    have hup := (abs_le.mp herr2).2
    have hE : (2:ℚ) ^ (fexpN (f.1 * 100) f.2 - 53) ≤ (2:ℚ) ^ (-1:ℤ) :=
      zpow_le_zpow_right₀ (by norm_num) (by omega)
    have hm1q : (2:ℚ) ^ (-1:ℤ) = 1/2 := by norm_num
    rw [hm1q] at hE
    linarith
  obtain ⟨hg2, hgval⟩ := mantissaFrac_val q.1 q.2
  set g := mantissaFrac q.1 q.2 with hgdef
  rw [hq2] at hgval
  have hg2' : (0:ℚ) < (g.2 : ℚ) := by exact_mod_cast hg2
  have hgq : (g.1 : ℚ) ≤ (100 + 1/2) * g.2 := by
    have : (g.1 : ℚ) = ((g.1 : ℚ) / g.2) * g.2 := by field_simp
    rw [this, hgval]
    exact mul_le_mul_of_nonneg_right hyle (le_of_lt hg2')
  have hglt : g.1 < 101 * g.2 := by
    have hql : (g.1 : ℚ) < 101 * g.2 := by nlinarith
    exact_mod_cast hql
  have hdiv : g.1 / g.2 ≤ 100 := by
    have := (Nat.div_lt_iff_lt_mul hg2).mpr (by omega : g.1 < 101 * g.2)
    omega
  constructor
  · exact_mod_cast Nat.zero_le _
  · exact_mod_cast hdiv

/-- C10 counterexample: at original price 100 and sale price 71 the code's
binary64 evaluation yields 28, while the claimed exact
floor((100 - 71) / 100 * 100) is 29. -/
theorem claim_C10_counterexample :
    disc_pct_of (some 100) (some 71) = some 28 ∧
    computeDiscountPct_spec 100 71 = 29 ∧
    disc_pct_of (some 100) (some 71) ≠ some (computeDiscountPct_spec 100 71) := by
  refine ⟨by decide, by decide, by decide⟩

/-- C10 (amended): discountPct is present exactly when both prices are known
with originalPrice > salePrice > 0; its value is the binary64 evaluation of
int((original - sale) / original * 100) — which can fall one below the exact
floor — and it always lies in [0, 100]. -/
theorem claim_C10_amended (o s : Option Nat) :
    ((disc_pct_of o s).isSome ↔
      ∃ ov sv, o = some ov ∧ s = some sv ∧ 0 < sv ∧ sv < ov) ∧
    (∀ ov sv, o = some ov → s = some sv → 0 < sv → sv < ov →
      disc_pct_of o s = some (discFloat ov sv)) ∧
    (∀ v, disc_pct_of o s = some v → 0 ≤ v ∧ v ≤ 100) := by
  refine ⟨?_, ?_, ?_⟩
  · cases o with
    | none => simp [disc_pct_of]
    | some ov =>
      cases s with
      | none => simp [disc_pct_of]
      | some sv =>
        simp only [disc_pct_of]
        constructor
        · intro hsome
          by_cases h : ov ≠ 0 ∧ sv ≠ 0 ∧ sv < ov
          · exact ⟨ov, sv, rfl, rfl, by omega, h.2.2⟩
          · rw [if_neg h] at hsome
            simp at hsome
        · rintro ⟨ov', sv', h1, h2, hpos, hlt⟩
          have hov : ov' = ov := by injection h1 with h'; exact h'.symm
          have hsv : sv' = sv := by injection h2 with h'; exact h'.symm
          subst hov; subst hsv
          rw [if_pos ⟨by omega, by omega, hlt⟩]
          rfl
  · intro ov sv h1 h2 hpos hlt
    subst h1; subst h2
    simp only [disc_pct_of]
    rw [if_pos ⟨by omega, by omega, hlt⟩]
  · intro v hv
    cases o with
    | none => simp [disc_pct_of] at hv
    | some ov =>
      cases s with
      | none => simp [disc_pct_of] at hv
      | some sv =>
        simp only [disc_pct_of] at hv
        by_cases h : ov ≠ 0 ∧ sv ≠ 0 ∧ sv < ov
        · rw [if_pos h] at hv
          have hd := discFloat_range ov sv (by omega) h.2.2
          have hveq : v = discFloat ov sv := by
            injection hv with h'
            exact h'.symm
          rw [hveq]
          exact hd
        · rw [if_neg h] at hv
          simp at hv

/-- Witness for claim_C10_amended at prices 1000 and 900. -/
theorem claim_C10_witness :
    disc_pct_of (some 1000) (some 900) = some (discFloat 1000 900) ∧
    0 ≤ discFloat 1000 900 ∧ discFloat 1000 900 ≤ 100 := by
  have h := claim_C10_amended (some 1000) (some 900)
  have hp := h.2.1 1000 900 rfl rfl (by decide) (by decide)
  exact ⟨hp, h.2.2 (discFloat 1000 900) hp⟩
